import Mathlib

/-!
Verification of the configuration-validation core of the repository:
the frontmatter header parser and agent-descriptor validator
(`scripts/ci/validate-agents.js`, also embedded in `scripts/shell/init.sh`
together with `validatePluginAgents`), and the hooks-configuration
validator (`verify-hooks.js`).

Modelling conventions (shallow embedding):
* A JavaScript string is modelled as a `List Char` (`Str`); a text document
  is modelled as its list of lines, i.e. the result of splitting the raw
  text on the newline character, so that a line never contains `'\n'`.
* JavaScript numbers are modelled as `ℚ` (the configurations under
  validation contain only small decimal literals, so no floating-point
  behaviour is observable).
* JSON data is modelled by the inductive `Json` below; JS objects are
  association lists in insertion order (as produced by `JSON.parse`, whose
  result has no duplicate keys).
* Each diagnostic message produced by a distinct `push` site in the source
  is modelled as a distinct constructor carrying exactly the values that
  the source interpolates into the message template; the template is given
  in the constructor's comment.
* The file system, environment variables, home directory and platform are
  abstracted as the parameter structure `Env`, since validation only ever
  asks whether a path exists (`fs.existsSync`).
-/

/-- A JavaScript string, modelled as its list of characters. -/
abbrev Str := List Char

/-- Whitespace class used by JS `\s`, `String.prototype.trim` and
`charAt(0)` whitespace tests (ASCII part; the sources never contain the
exotic Unicode space characters). -/
def isWsChar (c : Char) : Bool :=
  c = ' ' || c = '\t' || c = '\n' || c = '\r' || c = '\x0b' || c = '\x0c'

/-- Left trim: drop leading whitespace. -/
def ltrim (l : Str) : Str := l.dropWhile isWsChar

/-- Right trim: drop trailing whitespace. -/
def rtrim (l : Str) : Str := (l.reverse.dropWhile isWsChar).reverse

/-- JS `s.trim()`. -/
def jsTrim (l : Str) : Str := rtrim (ltrim l)

/-- JS `s.split(sep)` for a one-character separator: `"".split(",") = [""]`,
and every separator occurrence produces a boundary. -/
def jsSplit (sep : Char) : Str → List Str
  | [] => [[]]
  | a :: t =>
    match jsSplit sep t with
    | [] => [[]]
    | h :: r => if a = sep then [] :: h :: r else (a :: h) :: r

/-- JS `s.replace(/['"]/g, "")`: remove every single- and double-quote
character. -/
def stripQuotes (l : Str) : Str := l.filter (fun c => !(c = '"' || c = '\''))

/-- JS `s.slice(1, -1)`: drop the first and the last character. -/
def sliceInner (l : Str) : Str := (l.drop 1).dropLast

/-- Decimal rendering of a natural number (used for JS template
interpolation of array indices and counts). -/
def natToStr (n : ℕ) : Str := Nat.toDigits 10 n

/-- JS `s.replace(pat, rep)` for a plain (non-regex) pattern: replace the
first occurrence only. -/
def replaceFirst (pat rep : Str) : Str → Str
  | [] => []
  | a :: t => if pat.isPrefixOf (a :: t) then rep ++ (a :: t).drop pat.length
              else a :: replaceFirst pat rep t

/-- Association-list lookup (JS property read `data[k]`). -/
def alookup {α : Type} (k : Str) : List (Str × α) → Option α
  | [] => none
  | (k', v) :: t => if k' = k then some v else alookup k t

/-- Association-list write (JS property assignment `data[k] = v`): replace
in place if the key is present, else append — insertion order of first
assignment is preserved, matching JS object key order. -/
def upsert {α : Type} : List (Str × α) → Str → α → List (Str × α)
  | [], k, v => [(k, v)]
  | (k', v') :: t, k, v => if k' = k then (k', v) :: t else (k', v') :: upsert t k v

/-! ## Frontmatter header parser (`parseFrontmatter`, validate-agents.js 27–98) -/

/-- A parsed frontmatter value: a scalar string or a list of strings. -/
inductive FMValue : Type
  | str (s : Str)
  | arr (xs : List Str)
deriving DecidableEq, Repr

/-- The parsed key→value mapping (a JS object in insertion order). -/
abbrev FMap := List (Str × FMValue)

/-- Parser mode of the line scanner: `multilineMode` together with
`currentKey` (the source sets `currentKey` whenever it sets a mode, so the
key is carried inside the mode). -/
inductive PMode : Type
  | top
  | array (k : Str)
  | string (k : Str)
deriving DecidableEq, Repr

/-- The test-and-strip of the multiline array item pattern
`/^\s+-\s+/` (both `\s+` are greedy; the match requires at least one
leading whitespace character, a dash, and at least one whitespace after
it). Returns the line with the matched prefix removed. -/
def arrayItemOf (line : Str) : Option Str :=
  let w := line.takeWhile isWsChar
  let r := line.dropWhile isWsChar
  if w = [] then none
  else match r with
    | '-' :: r' =>
      let w2 := r'.takeWhile isWsChar
      if w2 = [] then none else some (r'.dropWhile isWsChar)
    | _ => none

/-- JS string coercion of a frontmatter value (`String(v)`; arrays become
their comma-joined elements). Only reachable through the defensive
branches of the parser, which never fire on well-formed state. -/
def fmToString : FMValue → Str
  | .str s => s
  | .arr xs => (xs.intersperse [',']).flatten

/-- `data[currentKey].push(item)` guarded by
`if (!Array.isArray(data[currentKey])) data[currentKey] = []`
(validate-agents.js 40–41). -/
def arrPush (d : FMap) (k : Str) (item : Str) : FMap :=
  match alookup k d with
  | some (.arr xs) => upsert d k (.arr (xs ++ [item]))
  | _ => upsert d k (.arr [item])

/-- `data[currentKey] += " " + line.trim()` (validate-agents.js 51); an
absent key would read as JS `undefined`, which stringifies. -/
def strAppend (d : FMap) (k : Str) (t : Str) : FMap :=
  match alookup k d with
  | some v => upsert d k (.str (fmToString v ++ ' ' :: t))
  | none => upsert d k (.str (("undefined").data ++ ' ' :: t))

/-- Classification of the value part of a top-level `key: value` line
(validate-agents.js 67–94): inline array, multiline string indicator,
empty value (enters array mode), quoted scalar, raw scalar. -/
def classifyValue (d : FMap) (key : Str) (value : Str) : FMap × PMode :=
  if ("[").data.isPrefixOf value && ("]").data.isSuffixOf value then
    (upsert d key (.arr (((jsSplit ',' (sliceInner value)).map
      (fun s => stripQuotes (jsTrim s))))), .top)
  else if value = ("|").data || value = (">").data then
    (upsert d key (.str []), .string key)
  else if value = [] then
    (upsert d key (.arr []), .array key)
  else if (value.head? = some '"' && value.getLast? = some '"')
       || (value.head? = some '\'' && value.getLast? = some '\'') then
    (upsert d key (.str (sliceInner value)), .top)
  else
    (upsert d key (.str value), .top)

/-- Processing of a line that is not a continuation of the active mode
(validate-agents.js 55–94): reset the mode, find the first colon, skip
lines without a colon, indented lines and empty keys, classify the rest. -/
def keyLine (d : FMap) (line : Str) : FMap × PMode :=
  match line.findIdx? (· = ':') with
  | none => (d, .top)
  | some i =>
    let key := jsTrim (line.take i)
    if key = [] || (match line.head? with | some c => isWsChar c | none => false) then
      (d, .top)
    else
      classifyValue d key (jsTrim (line.drop (i + 1)))

/-- One step of the frontmatter line scanner (one iteration of the
`for (const line of lines)` loop, validate-agents.js 36–95). -/
def parseStep (st : FMap × PMode) (line : Str) : FMap × PMode :=
  match st with
  | (d, .array k) =>
    match arrayItemOf line with
    | some item => (arrPush d k (jsTrim item), .array k)
    | none => keyLine d line
  | (d, .string k) =>
    if (match line.head? with | some c => isWsChar c | none => false)
       && (arrayItemOf line).isNone then
      (strAppend d k (jsTrim line), .string k)
    else keyLine d line
  | (d, .top) => keyLine d line

/-- Scan the lines strictly inside the delimiter block. -/
def parseLines (lines : List Str) : FMap :=
  (lines.foldl parseStep ([], .top)).1

/-- The block extraction of `content.match` on `^---\n([\s\S]*?)\n---` at line
level: the first line must be exactly `---`; the closing delimiter is the
first subsequent line that *begins* with `---` and is preceded by a
newline — so the first line after the opening delimiter can never close
the block, and a closing line must exist strictly after it. -/
def fmExtract : List Str → Option (List Str)
  | l0 :: r0 :: rs =>
    if l0 = ("---").data then
      match rs.findIdx? (fun l => ("---").data.isPrefixOf l) with
      | some i => some (r0 :: rs.take i)
      | none => none
    else none
  | _ => none

/-- `parseFrontmatter` (validate-agents.js 27–98): `none` is the
distinguished no-header signal (`return null`). -/
def parseFrontmatter (doc : List Str) : Option FMap :=
  (fmExtract doc).map parseLines

/-! ## JSON model and the hooks validator (`verify-hooks.js`) -/

/-- A JSON value (the result of `JSON.parse` on a configuration source).
Object fields are listed in insertion order and without duplicate keys. -/
inductive Json : Type
  | null
  | bool (b : Bool)
  | num (q : ℚ)
  | str (s : Str)
  | arr (xs : List Json)
  | obj (fields : List (Str × Json))

/-- JS truthiness of a JSON value (`[]` and `{}` are truthy). -/
def jsTruthy : Json → Bool
  | .null => false
  | .bool b => b
  | .num q => !(q = 0)
  | .str s => !(s = [])
  | .arr _ => true
  | .obj _ => true

/-- JS `typeof v === "object"` for a JSON value: objects, arrays and
`null` all have typeof `"object"`. -/
def jsTypeofObject : Json → Bool
  | .null => true
  | .arr _ => true
  | .obj _ => true
  | _ => false

/-- The `typeof` name of a JSON value (interpolated into the
`agents 元素必须是字符串` message). -/
def jsTypeofName : Json → Str
  | .null => ("object").data
  | .bool _ => ("boolean").data
  | .num _ => ("number").data
  | .str _ => ("string").data
  | .arr _ => ("object").data
  | .obj _ => ("object").data

/-- Decimal parse of a string of digits (used for JS array indexing by
string key). -/
def natOfStr? (s : Str) : Option ℕ :=
  if s ≠ [] && s.all Char.isDigit then
    some (s.foldl (fun n c => n * 10 + (c.toNat - ('0').toNat)) 0)
  else none

/-- JS property read `v[k]` on a JSON value: object field lookup, or
element lookup for an array indexed by a numeric string; every other base
yields `undefined` (`none`). Reading a property of `null` would throw in
JS; the validators only reach this on non-null values. -/
def getField (v : Json) (k : Str) : Option Json :=
  match v with
  | .obj fs => alookup k fs
  | .arr xs => match natOfStr? k with
               | some i => xs.get? i
               | none => none
  | _ => none

/-- `Object.entries(v)` for the values that pass the hooks guard: object
fields in order, or index/element pairs for an array. -/
def jsEntries : Json → List (Str × Json)
  | .obj fs => fs
  | .arr xs => xs.enum.map (fun p => (natToStr p.1, p.2))
  | _ => []

/-- CONFIG.timeout.min (verify-hooks.js 22). -/
def timeoutMin : ℚ := 1

/-- CONFIG.timeout.max (verify-hooks.js 23). -/
def timeoutMax : ℚ := 600

/-- CONFIG.timeout.recommended (verify-hooks.js 24–29). -/
def recommendedTimeout (lc : Str) : Option ℚ :=
  alookup lc [(("PreToolUse").data, 5), (("PostToolUse").data, 60),
              (("SessionStart").data, 5), (("SessionEnd").data, 5)]

/-- CONFIG.validLifecycles (verify-hooks.js 32–41). -/
def validLifecycles : List Str :=
  [("PreToolUse").data, ("PostToolUse").data, ("Notification").data,
   ("Stop").data, ("SessionEnd").data, ("SessionStart").data,
   ("PreCompact").data, ("Setup").data]

/-- Outcome of `validateMatcher` (verify-hooks.js 141–165):
`emptyErr` is the `matcher 不能为空` error (empty / missing / non-string
matcher), `syntaxErr` is the `matcher 语法可能不正确` error. -/
inductive MatcherCheck : Type
  | ok
  | emptyErr
  | syntaxErr
deriving DecidableEq, Repr

/-- The pattern `/^[A-Za-z]+$/`: a bare alphabetic tool name. -/
def matchBareIdent (s : Str) : Bool := !(s = []) && s.all Char.isAlpha

/-- The pattern `/^[A-Za-z]+\|[A-Za-z|]+$/`: an alphabetic prefix, a pipe,
then one or more characters each alphabetic or a pipe (note: the segments
after the first pipe may be empty). -/
def matchPipeList (s : Str) : Bool :=
  let a := s.takeWhile Char.isAlpha
  let r := s.dropWhile Char.isAlpha
  !(a = []) &&
    (match r with
     | '|' :: t => !(t = []) && t.all (fun c => c.isAlpha || c = '|')
     | _ => false)

/-- The characters the JS regex dot `.` does not match (without the `s`
flag): the line terminators `\n`, `\r`, U+2028 and U+2029. -/
def isLineTerm (c : Char) : Bool :=
  c = '\n' || c = '\r' || c = '\u2028' || c = '\u2029'

/-- The pattern `/^[A-Za-z]+\(.*\)$/`: an alphabetic prefix, an opening
parenthesis, any (possibly empty) argument text free of line terminators
(the JS dot), and a closing parenthesis as the last character. -/
def matchParen (s : Str) : Bool :=
  let a := s.takeWhile Char.isAlpha
  let r := s.dropWhile Char.isAlpha
  !(a = []) &&
    (match r with
     | '(' :: t => !(t = []) && t.getLast? = some ')'
         && t.dropLast.all (fun c => !(isLineTerm c))
     | _ => false)

/-- The `validPatterns.some(...)` test (verify-hooks.js 147–159). -/
def matcherShapeOk (s : Str) : Bool :=
  s = ("*").data || matchBareIdent s || matchPipeList s || matchParen s

/-- `validateMatcher` (verify-hooks.js 141–165). A missing, empty or
non-string matcher fails the `!matcher || typeof matcher !== "string"`
guard and yields the same `matcher 不能为空` error. -/
def validateMatcher (m : Option Json) : MatcherCheck :=
  match m with
  | some (.str s) =>
    if s = [] then .emptyErr
    else if matcherShapeOk s then .ok else .syntaxErr
  | _ => .emptyErr

/-- The two error messages of `validateTimeout`:
`timeout 必须是正数（当前: {cur}）` for a non-numeric or below-minimum
value, and `timeout 超过最大值 {max}s（当前: {cur}s）` for a value above
the maximum. -/
inductive TimeoutErr : Type
  | notPositive (cur : Json)
  | tooBig (maxVal : ℚ) (cur : ℚ)

/-- The two warning messages of `validateTimeout`:
`未设置 timeout，将使用默认值` and
`timeout 可能过短（当前: {cur}s，建议: {rec}s）`. -/
inductive TimeoutWarn : Type
  | notSet
  | tooShort (cur : ℚ) (rec : ℚ)
deriving DecidableEq, Repr

/-- Result of `validateTimeout` (verify-hooks.js 168–193). -/
inductive TimeoutRes : Type
  | ok
  | warn (w : TimeoutWarn)
  | err (e : TimeoutErr)

/-- `validateTimeout` (verify-hooks.js 168–193). `undefined` and `null`
are treated alike as "not set" and produce the advisory warning; a
non-numeric value or a numeric value below `timeoutMin` is the
`必须是正数` error; a value above `timeoutMax` is the `超过最大值` error;
otherwise a warning is produced exactly when the lifecycle has a (truthy)
recommended value and the timeout is below one tenth of it. -/
def validateTimeout (t : Option Json) (lc : Str) : TimeoutRes :=
  match t with
  | none => .warn .notSet
  | some .null => .warn .notSet
  | some (.num q) =>
    if q < timeoutMin then .err (.notPositive (.num q))
    else if q > timeoutMax then .err (.tooBig timeoutMax q)
    else match recommendedTimeout lc with
      | some r => if !(r = 0) && q < r / 10 then .warn (.tooShort q r) else .ok
      | none => .ok
  | some v => .err (.notPositive v)

/-- The abstracted host environment of the validator process: home
directory, environment variables, platform, and the file-existence test
`fs.existsSync`. -/
structure Env : Type where
  homedir : Str
  getEnv : Str → Option Str
  isWin : Bool
  pathExists : Str → Bool

/-- Case-insensitive literal prefix test (the `i` flag of the script-path
regex). -/
def ciIsPrefix (pat l : Str) : Bool :=
  (l.take pat.length).map Char.toLower = pat && pat.length ≤ l.length

/-- The suffix part `\s+["']?([^"'\s]+)` of the script-path regex: at
least one whitespace character, an optional opening quote, then a
non-empty capture of characters that are neither whitespace nor quotes.
If the optional quote is consumed but no capture character follows, the
backtracking alternative (not consuming the quote) also fails because a
quote cannot start the capture. -/
def capTail (r : Str) : Option Str :=
  let w := r.takeWhile isWsChar
  let r1 := r.dropWhile isWsChar
  if w = [] then none
  else
    let r2 := match r1 with
      | c :: t => if c = '"' || c = '\'' then t else r1
      | [] => r1
    let cap := r2.takeWhile (fun c => !(isWsChar c || c = '"' || c = '\''))
    if cap = [] then none else some cap

/-- One attempt of the alternation `(?:node|python3?|bash)` at a fixed
position, including the backtracking of the optional `3`. -/
def tryInterp (l : Str) : Option Str :=
  if ciIsPrefix ("node").data l then capTail (l.drop 4)
  else if ciIsPrefix ("python").data l then
    match l.drop 6 with
    | '3' :: t =>
      match capTail t with
      | some c => some c
      | none => capTail (l.drop 6)
    | _ => capTail (l.drop 6)
  else if ciIsPrefix ("bash").data l then capTail (l.drop 4)
  else none

/-- The unanchored scan of
`command.match` against `(?:node|python3?|bash)\s+["']?([^"'\s]+)` with
the `i` flag (verify-hooks.js 105): try each position left to right. -/
def extractScriptPath : Str → Option Str
  | [] => none
  | c :: t =>
    match tryInterp (c :: t) with
    | some cap => some cap
    | none => extractScriptPath t

/-- Simplified `path.join a b` (no `..` normalisation; the joined paths
are only ever passed to the abstract existence test). -/
def pathJoin (a b : Str) : Str := a ++ '/' :: b.dropWhile (· = '/')

/-- Global replacement of `%VAR%` placeholders
(`scriptPath.replace` on the global pattern `%([^%]+)%`, verify-hooks.js
121–124); a missing variable substitutes the empty string. -/
def substPercentVars (env : Str → Option Str) : Str → Str
  | [] => []
  | '%' :: t =>
    let name := t.takeWhile (· ≠ '%')
    match h : t.dropWhile (· ≠ '%') with
    | '%' :: t2 =>
      if name = [] then '%' :: substPercentVars env t
      else ((env name).getD []) ++ substPercentVars env t2
    | _ => '%' :: substPercentVars env t
  | c :: t => c :: substPercentVars env t
termination_by l => l.length
decreasing_by
  · simp only [List.length_cons]; omega
  · have h1 : (t.dropWhile (· ≠ '%')).length ≤ t.length :=
      ((List.dropWhile_suffix _).sublist).length_le
    rw [h] at h1
    simp only [List.length_cons] at h1 ⊢
    omega
  · simp only [List.length_cons]; omega
  · simp only [List.length_cons]; omega

/-- First character of a `$VAR` identifier: `[A-Za-z_]`. -/
def isVarStart (c : Char) : Bool := c.isAlpha || c = '_'

/-- Subsequent characters of a `$VAR` identifier: `[A-Za-z0-9_]`. -/
def isVarChar (c : Char) : Bool := c.isAlpha || c.isDigit || c = '_'

/-- Global replacement of `$VAR` placeholders
(`scriptPath.replace` on the global pattern `\$([A-Za-z_][A-Za-z0-9_]*)`,
verify-hooks.js 125–128); a missing variable substitutes the empty
string. -/
def substDollarVars (env : Str → Option Str) : Str → Str
  | [] => []
  | '$' :: c :: t =>
    if isVarStart c then
      ((env (c :: t.takeWhile isVarChar)).getD []) ++
        substDollarVars env (t.dropWhile isVarChar)
    else '$' :: substDollarVars env (c :: t)
  | '$' :: [] => ['$']
  | c :: t => c :: substDollarVars env t
termination_by l => l.length
decreasing_by
  · have h1 : (t.dropWhile isVarChar).length ≤ t.length :=
      ((List.dropWhile_suffix _).sublist).length_le
    simp only [List.length_cons]
    omega
  · simp only [List.length_cons]; omega
  · simp only [List.length_cons]; omega

/-- An entry-level issue (one element of the JS `entryResult.issues` /
hook `issues` arrays); each constructor is one distinct `push` site with
its interpolated data:
* `matcherEmpty` — `matcher 不能为空`
* `matcherSyntax` — `matcher 语法可能不正确`
* `noHooksArray` — `缺少 hooks 数组`
* `badType t` — `无效的 hook type: {t}`
* `noCommand` — `缺少 command 字段`
* `cmdUnparseable cmd` — `无法解析脚本路径: {cmd}` (null path falls back
  to the command text in the template)
* `scriptMissing p` — `脚本文件不存在: {p}` with `p` the fully resolved
  path
* `cmdNotString` — models the `TypeError` a non-string truthy `command`
  would raise inside `command.match` (unreachable for string commands)
* `timeoutBad e` — the corresponding `validateTimeout` error message. -/
inductive Issue : Type
  | matcherEmpty
  | matcherSyntax
  | noHooksArray
  | badType (t : Option Json)
  | noCommand
  | cmdUnparseable (cmd : Str)
  | scriptMissing (p : Str)
  | cmdNotString
  | timeoutBad (e : TimeoutErr)

/-- An entry-level warning (`entryResult.warnings`). -/
inductive Warn : Type
  | timeoutWarn (w : TimeoutWarn)
deriving DecidableEq, Repr

/-- `validateScriptPath` (verify-hooks.js 103–138): extract the script
path from the command, apply the Windows separator rewrite, the `~`
expansion and the environment substitutions, then test existence. -/
def validateScriptPath (E : Env) (cmd : Str) : List Issue :=
  match extractScriptPath cmd with
  | none => [.cmdUnparseable cmd]
  | some p0 =>
    let p1 := if E.isWin then p0.map (fun c => if c = '/' then '\\' else c) else p0
    let p2 := match p1 with
      | '~' :: rest => pathJoin E.homedir rest
      | _ => p1
    let p3 := substDollarVars E.getEnv (substPercentVars E.getEnv p2)
    if E.pathExists p3 then [] else [.scriptMissing p3]

/-- CONFIG.validHookTypes (verify-hooks.js 43). -/
def validHookTypes : List Str := [("command").data]

/-- The `type` check of `validateHook` (verify-hooks.js 201–203):
`!hook.type || !CONFIG.validHookTypes.includes(hook.type)`. -/
def hookTypeIssues (h : Json) : List Issue :=
  match getField h ("type").data with
  | some (.str c) =>
    if !(c = []) && validHookTypes.contains c then [] else [.badType (some (.str c))]
  | t => [.badType t]

/-- The `command` check of `validateHook` (verify-hooks.js 206–213). -/
def hookCommandIssues (E : Env) (h : Json) : List Issue :=
  match getField h ("command").data with
  | some v =>
    if jsTruthy v then
      match v with
      | .str s => validateScriptPath E s
      | _ => [.cmdNotString]
    else [.noCommand]
  | none => [.noCommand]

/-- The `timeout` check of `validateHook` (verify-hooks.js 215–221): an
invalid result is pushed to `issues`, otherwise an attached warning is
pushed to `warnings`. -/
def hookTimeoutDiag (h : Json) (lc : Str) : List Issue × List Warn :=
  match validateTimeout (getField h ("timeout").data) lc with
  | .err e => ([.timeoutBad e], [])
  | .warn w => ([], [.timeoutWarn w])
  | .ok => ([], [])

/-- `validateHook` (verify-hooks.js 196–224): issues and warnings for one
hook action, in push order. -/
def validateHook (E : Env) (h : Json) (lc : Str) : List Issue × List Warn :=
  (hookTypeIssues h ++ hookCommandIssues E h ++ (hookTimeoutDiag h lc).1,
   (hookTimeoutDiag h lc).2)

/-- Result attached to one matcher entry (`entryResult`,
verify-hooks.js 268–273). -/
structure EntryResult : Type where
  index : ℕ
  matcher : Option Json
  issues : List Issue
  warnings : List Warn

/-- Lifecycle-level failures (`results.lifecycles[lifecycle].error`):
`未知的生命周期事件: {name}` and `hooks 配置应该是数组`. -/
inductive LcIssue : Type
  | unknownLifecycle (name : Str)
  | notArray
deriving DecidableEq, Repr

/-- Outcome recorded under one lifecycle key of `results.lifecycles`. -/
inductive LcOutcome : Type
  | failed (e : LcIssue)
  | checked (valid : Bool) (entries : List EntryResult)

/-- `results.summary` (verify-hooks.js 232). -/
structure Summary : Type where
  errors : ℕ
  warnings : ℕ
  hooks : ℕ
deriving DecidableEq, Repr

/-- The matcher part of one entry's issues (verify-hooks.js 276–279). -/
def matcherIssues (m : Option Json) : List Issue :=
  match validateMatcher m with
  | .ok => []
  | .emptyErr => [.matcherEmpty]
  | .syntaxErr => [.matcherSyntax]

/-- Validation of one matcher entry (verify-hooks.js 266–299): the
matcher check, then the `hooks` array check (`!entry.hooks ||
!Array.isArray(entry.hooks)`), then each hook in order. Also returns the
number of hooks iterated (the `results.summary.hooks` increment). -/
def validateEntry (E : Env) (lc : Str) (i : ℕ) (e : Json) : EntryResult × ℕ :=
  let m := getField e ("matcher").data
  match getField e ("hooks").data with
  | some (.arr hs) =>
    let reps := hs.map (fun h => validateHook E h lc)
    (⟨i, m, matcherIssues m ++ reps.flatMap Prod.fst, reps.flatMap Prod.snd⟩,
     hs.length)
  | _ => (⟨i, m, matcherIssues m ++ [.noHooksArray], []⟩, 0)

/-- Validation of one lifecycle key of the hooks object
(verify-hooks.js 241–306), together with its contribution to the summary
counters. -/
def validateLifecycle (E : Env) (lc : Str) (v : Json) : LcOutcome × Summary :=
  if !validLifecycles.contains lc then
    (.failed (.unknownLifecycle lc), ⟨1, 0, 0⟩)
  else
    match v with
    | .arr es =>
      let rs := es.enum.map (fun p => validateEntry E lc p.1 p.2)
      let errs := (rs.map (fun r => r.1.issues.length)).sum
      let warns := (rs.map (fun r => r.1.warnings.length)).sum
      let hooks := (rs.map Prod.snd).sum
      (.checked (rs.all (fun r => r.1.issues.isEmpty)) (rs.map Prod.fst),
       ⟨errs, warns, hooks⟩)
    | _ => (.failed .notArray, ⟨1, 0, 0⟩)

/-- The per-source report of `validateHooksConfig`
(verify-hooks.js 227–309): `topError` models `results.error`
(`未找到 hooks 配置`), set exactly when the guard
`!config.hooks || typeof config.hooks !== "object"` fires — note that the
guard leaves `results.summary` at zero in that case. -/
structure SourceResult : Type where
  valid : Bool
  topError : Bool
  lifecycles : List (Str × LcOutcome)
  summary : Summary

/-- The guard condition of verify-hooks.js 235: the `hooks` key is
missing, falsy, or of a `typeof` other than `"object"` (a JSON array
passes this guard, since arrays are `typeof "object"` in JS). -/
def hooksGuardFails (config : Json) : Bool :=
  match getField config ("hooks").data with
  | none => true
  | some v => !jsTruthy v || !jsTypeofObject v

/-- `validateHooksConfig` (verify-hooks.js 227–309). The `continue`
branches for an unknown lifecycle or a non-array value (241–259) record
their error and counter but never clear `results.valid`; only the
top-level guard and a checked lifecycle containing issues do. -/
def validateHooksConfig (E : Env) (config : Json) : SourceResult :=
  if hooksGuardFails config then
    ⟨false, true, [], ⟨0, 0, 0⟩⟩
  else
    let hooks := (getField config ("hooks").data).getD .null
    let lcs := (jsEntries hooks).map
      (fun p => (p.1, validateLifecycle E p.1 p.2))
    { valid := lcs.all (fun p => match p.2.1 with
        | .failed _ => true
        | .checked ok _ => ok)
      topError := false
      lifecycles := lcs.map (fun p => (p.1, p.2.1))
      summary := ⟨(lcs.map (fun p => p.2.2.errors)).sum,
                  (lcs.map (fun p => p.2.2.warnings)).sum,
                  (lcs.map (fun p => p.2.2.hooks)).sum⟩ }

/-- The final tally and exit status of `main` (verify-hooks.js 456–477):
the process exits `1` exactly when the summed per-source
`summary.errors` over all successfully loaded sources is positive;
warnings alone exit `0`. -/
def mainExitCode (E : Env) (configs : List Json) : ℕ :=
  if ((configs.map (fun c => (validateHooksConfig E c).summary.errors)).sum) = 0
  then 0 else 1

/-! ## Agent descriptor validator (`validateAgent`, validate-agents.js 103–162) -/

/-- REQUIRED_FIELDS (validate-agents.js 15). -/
def requiredFields : List Str :=
  [("name").data, ("description").data, ("tools").data]

/-- VALID_MODELS (validate-agents.js 21). -/
def validModels : List Str := [("opus").data, ("sonnet").data, ("haiku").data]

/-- Errors of `validateAgent`, one constructor per push site:
* `noFrontmatter` — `缺少 YAML frontmatter`
* `badFrontmatter` — `YAML frontmatter 格式错误`
* `missingField f` — `缺少必需字段: {f}`
* `badModel v` — `无效的 model 值: {v}，应为 opus/sonnet/haiku`. -/
inductive AgentIssue : Type
  | noFrontmatter
  | badFrontmatter
  | missingField (f : Str)
  | badModel (v : FMValue)
deriving DecidableEq, Repr

/-- Warnings of `validateAgent`:
* `nameMismatch n expected` — `name "{n}" 与文件名 "{expected}" 不一致`
* `shortDescription` — `description 过短，建议至少 20 字符`
* `thinBody` — `文件内容过少，建议添加更多说明`. -/
inductive AgentWarn : Type
  | nameMismatch (n : FMValue) (expected : Str)
  | shortDescription
  | thinBody
deriving DecidableEq, Repr

/-- JS falsiness of an optional frontmatter field value
(`!data[field]`): absent or the empty string — note an empty *array* is
truthy in JS. -/
def fmFalsy : Option FMValue → Bool
  | none => true
  | some (.str s) => s = []
  | some (.arr _) => false

/-- JS `.length` of a frontmatter value: character count of a string,
element count of an array. -/
def fmLength : FMValue → ℕ
  | .str s => s.length
  | .arr xs => xs.length

/-- The body extraction of
`content.match` on `^---\n[\s\S]*?\n---\n([\s\S]*)` at line level
(validate-agents.js 156): the capture starts after the first line at
document index at least 2 that is *exactly* `---` (the pattern requires
a newline right after the dashes, unlike the frontmatter close which
only needs the line to begin with `---`; and the closing dashes must
follow a newline distinct from the opening line's own, so the line right
after the opening can never close), and that closing line must not be
the final line. -/
def bodyOf : List Str → Option (List Str)
  | l0 :: _r0 :: rest =>
    if l0 = ("---").data then
      match rest.findIdx? (fun l => l = ("---").data) with
      | some i => if rest.drop (i + 1) = [] then none else some (rest.drop (i + 1))
      | none => none
    else none
  | _ => none

/-- The missing-required-field errors (validate-agents.js 129–133). -/
def requiredFieldIssues (data : FMap) : List AgentIssue :=
  requiredFields.flatMap
    (fun f => if fmFalsy (alookup f data) then [.missingField f] else [])

/-- The model-enumeration error (validate-agents.js 144–148):
`data.model && !VALID_MODELS.includes(data.model)`. -/
def modelIssues (data : FMap) : List AgentIssue :=
  match alookup ("model").data data with
  | some v =>
    if fmFalsy (some v) then []
    else match v with
      | .str s => if validModels.contains s then [] else [.badModel (.str s)]
      | .arr xs => [.badModel (.arr xs)]
  | none => []

/-- The name/filename warning (validate-agents.js 136–141): fires when
`data.name` is truthy and differs (strict `!==`) from the file name with
its first `.md` removed; a non-string name always differs. -/
def nameWarnings (data : FMap) (fileName : Str) : List AgentWarn :=
  match alookup ("name").data data with
  | some v =>
    if fmFalsy (some v) then []
    else
      let expected := replaceFirst (".md").data [] fileName
      match v with
      | .str s => if s = expected then [] else [.nameMismatch (.str s) expected]
      | .arr xs => [.nameMismatch (.arr xs) expected]
  | none => []

/-- The description-length warning (validate-agents.js 151–153). -/
def descWarnings (data : FMap) : List AgentWarn :=
  match alookup ("description").data data with
  | some v => if fmFalsy (some v) then []
              else if fmLength v < 20 then [.shortDescription] else []
  | none => []

/-- The body-length warning (validate-agents.js 156–159): the joined body
text, trimmed, must have at least 100 characters. -/
def bodyWarnings (doc : List Str) : List AgentWarn :=
  match bodyOf doc with
  | some b => if (jsTrim ((b.intersperse ['\n']).flatten)).length < 100
              then [.thinBody] else []
  | none => [.thinBody]

/-- `validateAgent` (validate-agents.js 103–162) on an already-read
document (the read itself is outside the model): frontmatter presence
check (`content.startsWith("---")` at line level), parse, required
fields, name heuristic, model enumeration, description length, body
length. Returns `(errors, warnings)` in push order. -/
def validateAgentLines (doc : List Str) (fileName : Str) :
    List AgentIssue × List AgentWarn :=
  if !(match doc with | l :: _ => ("---").data.isPrefixOf l | [] => false) then
    ([.noFrontmatter], [])
  else
    match parseFrontmatter doc with
    | none => ([.badFrontmatter], [])
    | some data =>
      (requiredFieldIssues data ++ modelIssues data,
       nameWarnings data fileName ++ descWarnings data ++ bodyWarnings doc)

/-- The per-file loop of `main` (validate-agents.js 185–204): every file
is validated independently; no failure aborts the batch. -/
def validateAgentsBatch (files : List (Str × List Str)) :
    List (List AgentIssue × List AgentWarn) :=
  files.map (fun p => validateAgentLines p.2 p.1)

/-! ## Plugin manifest cross-checker (`validatePluginAgents`, init.sh 312–372) -/

/-- Errors of `validatePluginAgents`, one constructor per push site:
* `entryNotString ty` — `agents 元素必须是字符串，实际: {ty}`
* `entryIsDir s` — `agents 不支持目录路径: "{s}"，必须列出每个 .md 文件`
* `entryNotMd s` — `agents 路径必须以 .md 结尾: "{s}"`
* `countMismatch declared actual` —
  `plugin.json 声明 {declared} 个 agents，实际目录有 {actual} 个`
* `entryFileMissing s` — `plugin.json 引用的文件不存在: "{s}"`. -/
inductive PluginIssue : Type
  | entryNotString (ty : Str)
  | entryIsDir (s : Str)
  | entryNotMd (s : Str)
  | countMismatch (declared : ℕ) (actual : ℕ)
  | entryFileMissing (s : Str)
deriving DecidableEq, Repr

/-- The per-entry shape checks of init.sh 339–350: a non-string entry is
reported once and skipped (`continue`); a string entry is checked for a
trailing path separator and for the `.md` suffix (both can fire). -/
def pluginEntryIssues (e : Json) : List PluginIssue :=
  match e with
  | .str s =>
    (if ("/").data.isSuffixOf s then [.entryIsDir s] else []) ++
    (if (".md").data.isSuffixOf s then [] else [.entryNotMd s])
  | _ => [.entryNotString (jsTypeofName e)]

/-- The existence check of init.sh 361–369: each string entry is resolved
against the plugin root and must exist; non-string entries are skipped. -/
def pluginExistsIssues (exists1 : Str → Bool) (root : Str) (e : Json) :
    List PluginIssue :=
  match e with
  | .str s => if exists1 (pathJoin root s) then [] else [.entryFileMissing s]
  | _ => []

/-- `validatePluginAgents` (init.sh 312–372) after the `plugin.json`
loading guards, for a manifest whose `agents` field is an array: the
per-entry shape checks, then the count comparison against the on-disk
inventory (`agentFiles`), then the per-entry existence checks, in source
order. -/
def validatePluginAgents (agents : List Json) (agentFiles : List Str)
    (exists1 : Str → Bool) (root : Str) : List PluginIssue :=
  agents.flatMap pluginEntryIssues ++
  (if agents.length = agentFiles.length then []
   else [.countMismatch agents.length agentFiles.length]) ++
  agents.flatMap (pluginExistsIssues exists1 root)

/-! ## Claim-level definitions and concrete fixtures -/

/-- C1's notion of "a source containing at least one error": a positive
counted error total, or (per the claim's final sentence) a missing
top-level hooks key. -/
def sourceContainsErrorClaim (r : SourceResult) : Bool :=
  r.topError || decide (0 < r.summary.errors)

/-- A minimal hooks configuration with a single `PreToolUse` entry whose
matcher is `s` and whose hook list is empty. -/
def oneMatcherConfig (s : Str) : Json :=
  .obj [(("hooks").data,
    .obj [(("PreToolUse").data,
      .arr [.obj [(("matcher").data, .str s), (("hooks").data, .arr [])]])])]

/-- The four accepted matcher shapes: `"*"`, a bare alphabetic
identifier, a pipe-delimited list of non-empty identifiers, or an
identifier with a parenthesized argument. The argument must be free of
line terminators: the code's pattern matches it with the JS dot, so it
rejects `\n`, `\r`, U+2028 and U+2029 inside the parentheses — a
restriction the specification's wording does not state. -/
def claimMatcherShape (s : Str) : Prop :=
  s = ("*").data ∨
  (s ≠ [] ∧ ∀ c ∈ s, c.isAlpha) ∨
  (∃ segs : List Str, 2 ≤ segs.length ∧
    (∀ seg ∈ segs, seg ≠ [] ∧ ∀ c ∈ seg, c.isAlpha) ∧
    s = (segs.intersperse ['|']).flatten) ∨
  (∃ ident arg : Str, ident ≠ [] ∧ (∀ c ∈ ident, c.isAlpha) ∧
    (∀ c ∈ arg, isLineTerm c = false) ∧ s = ident ++ '(' :: arg ++ [')'])

/-- C5's reading of a required field being "absent or empty": missing
key, empty string, or empty list. -/
def claimAbsentOrEmpty : Option FMValue → Bool
  | none => true
  | some (.str s) => s.isEmpty
  | some (.arr xs) => xs.isEmpty

/-- The number of required fields that are absent or empty (in C5's
sense) in a document's parsed header. -/
def claimRequiredMissingCount (doc : List Str) : ℕ :=
  match parseFrontmatter doc with
  | some d => (requiredFields.filter (fun f => claimAbsentOrEmpty (alookup f d))).length
  | none => 0

/-- Recognizer of the count-mismatch error among plugin manifest
issues. -/
def isCountMismatch : PluginIssue → Bool
  | .countMismatch _ _ => true
  | _ => false

/-- A concrete host environment on which no file exists. -/
def noFileEnv : Env := ⟨("/home/u").data, fun _ => none, false, fun _ => false⟩

/-- A concrete host environment on which every path exists. -/
def allFilesEnv : Env := ⟨("/home/u").data, fun _ => none, false, fun _ => true⟩

/-- A hook action with a valid type and command but no `timeout` key. -/
def hookCmdOnly : Json :=
  .obj [(("type").data, .str ("command").data),
        (("command").data, .str ("node check.js").data)]

/-- A configuration with a single hook action that has no `timeout`. -/
def noTimeoutConfig : Json :=
  .obj [(("hooks").data,
    .obj [(("PostToolUse").data,
      .arr [.obj [(("matcher").data, .str ("*").data),
                  (("hooks").data, .arr [hookCmdOnly])]])])]

/-- A descriptor document whose `tools` field is an empty block list
(`tools:` with no items), with valid `name` and `description`. -/
def emptyToolsDoc : List Str :=
  [("---").data,
   ("name: cx").data,
   ("description: a sufficiently long description here").data,
   ("tools:").data,
   ("---").data,
   ("short body").data]

/-! ## The spec-side re-serializer for the header round-trip (C8) -/

/-- Modelled from the spec: re-serialization of one parsed header binding
in the supported subset (spec §8: "every recognized inline-list,
block-list, and quoted-scalar form"). A scalar is emitted as a
double-quoted scalar; a list all of whose items are trim-stable is
emitted in block-list form; any other list (which the parser only ever
produces from an inline list, so its items contain no comma and no
quote) is emitted as an inline list of double-quoted items. -/
def serializeBinding : Str × FMValue → List Str
  | (k, .str s) => [k ++ ':' :: ' ' :: '"' :: s ++ ['"']]
  | (k, .arr xs) =>
    if xs.all (fun x => jsTrim x = x) then
      (k ++ [':']) :: xs.map (fun x => ' ' :: ' ' :: '-' :: ' ' :: x)
    else
      [k ++ ':' :: ' ' :: '[' ::
        ((xs.map (fun x => '"' :: x ++ ['"'])).intersperse [',']).flatten ++ [']']]

/-- Modelled from the spec: re-serialization of a parsed header back into
a delimiter-bounded document (list of lines); an empty header body is
padded with a single blank line so the closing delimiter line remains
separate from the opening one. -/
def serializeFrontmatter (m : FMap) : List Str :=
  let b := m.flatMap serializeBinding
  ("---").data :: (if b = [] then [[]] else b) ++ [("---").data]

/-- Well-formedness of a key as produced by the key-line scanner: it is
non-empty, trim-stable and colon-free. -/
def GoodKey (k : Str) : Prop := k ≠ [] ∧ jsTrim k = k ∧ ':' ∉ k

/-- Well-formedness of a parsed value: list items are either all
trim-stable (block lists) or all comma- and quote-free (inline lists). -/
def GoodVal : FMValue → Prop
  | .str _ => True
  | .arr xs => (∀ x ∈ xs, jsTrim x = x) ∨ (∀ x ∈ xs, ',' ∉ x ∧ '"' ∉ x ∧ '\'' ∉ x)

/-- Well-formedness of the accumulated data object: every binding has a
good key and a good value, and keys are distinct. -/
def GoodData (d : FMap) : Prop :=
  (∀ p ∈ d, GoodKey p.1 ∧ GoodVal p.2) ∧ (d.map Prod.fst).Nodup

/-- Consistency of the scanner mode with the data object: in array mode
the current key holds an array of trim-stable items, in string mode the
current key is present. -/
def ModeOk (d : FMap) : PMode → Prop
  | .array k => ∃ xs, alookup k d = some (.arr xs) ∧ ∀ x ∈ xs, jsTrim x = x
  | .string k => (alookup k d).isSome = true
  | .top => True

/-- Positional key condition: every binding beyond the first has a key
that does not begin with the delimiter `---` (only the first body line of
an extracted block can begin with `---`, and only it can create such a
key). -/
def TailKeysOk (d : FMap) : Prop :=
  ∀ p ∈ d.drop 1, (("---").data.isPrefixOf p.1) = false

/-! ## Theorems -/

/-- A list of naturals has non-zero sum iff some element is positive. -/
theorem natSumNeZeroIff (l : List ℕ) : l.sum ≠ 0 ↔ ∃ x ∈ l, 0 < x := by
  induction l with
  | nil => simp
  | cons a t ih =>
    simp only [List.sum_cons, List.mem_cons]
    constructor
    · intro h
      by_cases ha : a = 0
      · subst ha
        simp only [Nat.zero_add] at h
        obtain ⟨x, hx, hpos⟩ := ih.mp h
        exact ⟨x, Or.inr hx, hpos⟩
      · exact ⟨a, Or.inl rfl, Nat.pos_of_ne_zero ha⟩
    · rintro ⟨x, hx | hx, hpos⟩ <;> intro hsum
      · subst hx; omega
      · exact (ih.mpr ⟨x, hx, hpos⟩) (by omega)

/-- C3: for every configuration source that fails the top-level hooks
guard (key absent, falsy, or of non-object `typeof` — the code's reading
of "absent or not an object"; note a JSON array has `typeof "object"` in
JS and passes the guard), the validator records exactly the one top-level
structural error (`未找到 hooks 配置`), performs no per-lifecycle
validation (its lifecycle report is empty), and contributes zero
per-lifecycle diagnostics (all summary counters stay zero). -/
theorem missingHooksKeyTopLevelError (E : Env) (config : Json)
    (h : hooksGuardFails config = true) :
    validateHooksConfig E config = ⟨false, true, [], ⟨0, 0, 0⟩⟩ := by
  unfold validateHooksConfig
  rw [if_pos h]

/-- Witness for C3 at the concrete source `{}` (no hooks key). -/
theorem missingHooksKeyTopLevelErrorWitness :
    hooksGuardFails (Json.obj []) = true ∧
    validateHooksConfig noFileEnv (Json.obj []) = ⟨false, true, [], ⟨0, 0, 0⟩⟩ :=
  ⟨rfl, missingHooksKeyTopLevelError noFileEnv (Json.obj []) rfl⟩

/-- C1 counterexample: a run whose single checked source has no top-level
`hooks` key exits with status `0`, although by the claim's own reading
that source "contains one error": the top-level error is recorded but is
never added to `summary.errors`, which is all the exit code looks at. -/
theorem hooksMissingKeyExitCounterexample :
    mainExitCode noFileEnv [Json.obj []] = 0 ∧
    sourceContainsErrorClaim (validateHooksConfig noFileEnv (Json.obj [])) = true :=
  ⟨rfl, rfl⟩

/-- C1 amended: the hook validator exits non-zero iff some checked source
has a positive *counted* error total (`summary.errors`); warnings alone
never fail the run, and a source failing the top-level hooks guard
contributes a zero error count, so it can never cause a failing exit by
itself. -/
theorem exitCodeIffCountedErrors (E : Env) (configs : List Json) :
    (mainExitCode E configs ≠ 0 ↔
      ∃ c ∈ configs, 0 < (validateHooksConfig E c).summary.errors) ∧
    (∀ c, hooksGuardFails c = true →
      (validateHooksConfig E c).summary.errors = 0) := by
  constructor
  · have h1 : mainExitCode E configs ≠ 0 ↔
        ((configs.map (fun c => (validateHooksConfig E c).summary.errors)).sum) ≠ 0 := by
      unfold mainExitCode
      split
      · simp_all
      · simp_all
    rw [h1, natSumNeZeroIff]
    constructor
    · rintro ⟨x, hx, hpos⟩
      obtain ⟨c, hc, rfl⟩ := List.mem_map.mp hx
      exact ⟨c, hc, hpos⟩
    · rintro ⟨c, hc, hpos⟩
      exact ⟨_, List.mem_map.mpr ⟨c, hc, rfl⟩, hpos⟩
  · intro c h
    rw [missingHooksKeyTopLevelError E c h]

/-- Witness for C1's amended statement: on a run with one healthy source
(one `*` matcher, one hook with an existing script, no timeout) the exit
code is `0` and the equivalence holds; the guard part is discharged at
the concrete source `{}`. -/
theorem exitCodeIffCountedErrorsWitness :
    hooksGuardFails (Json.obj []) = true ∧
    (validateHooksConfig allFilesEnv (Json.obj [])).summary.errors = 0 ∧
    (mainExitCode allFilesEnv [noTimeoutConfig] ≠ 0 ↔
      ∃ c ∈ [noTimeoutConfig],
        0 < (validateHooksConfig allFilesEnv c).summary.errors) :=
  ⟨rfl, (exitCodeIffCountedErrors allFilesEnv []).2 (Json.obj []) rfl,
   (exitCodeIffCountedErrors allFilesEnv [noTimeoutConfig]).1⟩

/-- C7 counterexample: a hook action without a `timeout` key is not
purely informational — `validateTimeout` returns the advisory
`未设置 timeout，将使用默认值` warning, `validateHook` pushes it, and it
is counted in the per-source warning total (summary `⟨0, 1, 1⟩` for a
source whose only hook lacks a timeout). -/
theorem absentTimeoutWarnsCounterexample :
    (validateHook allFilesEnv hookCmdOnly (("PostToolUse").data)).1 = [] ∧
    (validateHook allFilesEnv hookCmdOnly (("PostToolUse").data)).2 =
      [.timeoutWarn .notSet] ∧
    (validateHooksConfig allFilesEnv noTimeoutConfig).summary = ⟨0, 1, 1⟩ :=
  ⟨rfl, rfl, rfl⟩

/-- C7 amended: for a hook action whose `timeout` field is absent, the
timeout check contributes no error but exactly one advisory warning (the
"a default will apply" message), which is the hook's entire warning
list. -/
theorem absentTimeoutDiagnostics (E : Env) (h : Json) (lc : Str)
    (ht : getField h (("timeout").data) = none) :
    (hookTimeoutDiag h lc).1 = [] ∧
    (hookTimeoutDiag h lc).2 = [.timeoutWarn .notSet] ∧
    (validateHook E h lc).2 = [.timeoutWarn .notSet] := by
  unfold validateHook hookTimeoutDiag
  rw [ht]
  exact ⟨rfl, rfl, rfl⟩

/-- Witness for C7's amended statement at the concrete hook without
`timeout`. -/
theorem absentTimeoutDiagnosticsWitness :
    getField hookCmdOnly (("timeout").data) = none ∧
    (hookTimeoutDiag hookCmdOnly (("PreToolUse").data)).2 =
      [.timeoutWarn .notSet] :=
  ⟨rfl, (absentTimeoutDiagnostics noFileEnv hookCmdOnly (("PreToolUse").data) rfl).2.1⟩

/-- `takeWhile`/`dropWhile` on a list made of a satisfying prefix, a
failing element, and a tail. -/
theorem takeWhileAppendEq {α : Type} (p : α → Bool) (a : List α) (c : α)
    (r : List α) (ha : ∀ x ∈ a, p x = true) (hc : p c = false) :
    (a ++ c :: r).takeWhile p = a ∧ (a ++ c :: r).dropWhile p = c :: r := by
  induction a with
  | nil => simp [List.takeWhile_cons, List.dropWhile_cons, hc]
  | cons x t ih =>
    have hx : p x = true := ha x (List.mem_cons_self x t)
    have ih' := ih (fun y hy => ha y (List.mem_cons_of_mem x hy))
    simp [List.takeWhile_cons, List.dropWhile_cons, hx, ih'.1, ih'.2]

/-- A `flatMap` over elements all sent to `[]` is `[]`. -/
theorem flatMapNil {α β : Type} (f : α → List β) (l : List α)
    (h : ∀ e ∈ l, f e = []) : l.flatMap f = [] := by
  induction l with
  | nil => rfl
  | cons a t ih =>
    simp only [List.flatMap_cons, h a (List.mem_cons_self a t),
      List.nil_append]
    exact ih (fun e he => h e (List.mem_cons_of_mem a he))

/-- A `flatMap` producing a singleton or nothing is the map over the
filter. -/
theorem flatMapIfSingleton {α β : Type} (p : α → Bool) (g : α → β)
    (l : List α) :
    l.flatMap (fun f => if p f then [g f] else []) = (l.filter p).map g := by
  induction l with
  | nil => rfl
  | cons a t ih =>
    by_cases hp : p a = true <;>
      simp [List.flatMap_cons, List.filter_cons, hp, ih]

/-- A matcher check either passes with no issue, or fails with exactly
one issue. -/
theorem matcherIssuesCases (m : Option Json) :
    (validateMatcher m = .ok ∧ matcherIssues m = []) ∨
    (validateMatcher m ≠ .ok ∧ (matcherIssues m).length = 1) := by
  cases h : validateMatcher m <;> simp [matcherIssues, h]

/-- The recommended timeouts are all `5` or `60` (in particular,
non-zero). -/
theorem recommendedTimeoutVals (lc : Str) (r : ℚ)
    (h : recommendedTimeout lc = some r) : r = 5 ∨ r = 60 := by
  simp only [recommendedTimeout, alookup] at h
  split_ifs at h <;> simp_all

/-- C4: timeout validation.
(a) A numeric timeout above the maximum `600` yields exactly one range
error carrying the maximum and the current value (message
`timeout 超过最大值 600s（当前: …s）`).
(b) A numeric timeout within `[1, 600]` yields no error, and a warning
exactly when the lifecycle has a recommended value and the timeout is
below one tenth of it.
(c) A timeout below the minimum, or a present non-numeric (and non-null)
timeout, yields exactly one error.
(d) At the hook level an invalid timeout contributes exactly one issue
and no warning. -/
theorem timeoutRangeValidation (lc : Str) (q : ℚ) :
    (timeoutMax < q →
      validateTimeout (some (.num q)) lc = .err (.tooBig timeoutMax q)) ∧
    (timeoutMin ≤ q → q ≤ timeoutMax →
      (∀ r, recommendedTimeout lc = some r →
        validateTimeout (some (.num q)) lc =
          (if q < r / 10 then .warn (.tooShort q r) else .ok)) ∧
      (recommendedTimeout lc = none →
        validateTimeout (some (.num q)) lc = .ok)) ∧
    (q < timeoutMin →
      validateTimeout (some (.num q)) lc = .err (.notPositive (.num q))) ∧
    (∀ v : Json, (∀ q' : ℚ, v ≠ .num q') → v ≠ .null →
      validateTimeout (some v) lc = .err (.notPositive v)) ∧
    (∀ h : Json, ∀ e : TimeoutErr,
      validateTimeout (getField h (("timeout").data)) lc = .err e →
      hookTimeoutDiag h lc = ([.timeoutBad e], [])) := by
  refine ⟨?_, ?_, ?_, ?_, ?_⟩
  · intro hbig
    have h1 : ¬(q < timeoutMin) := by
      unfold timeoutMin; unfold timeoutMax at hbig; linarith
    simp [validateTimeout, h1, hbig]
  · intro hmin hmax
    have h1 : ¬(q < timeoutMin) := by linarith
    have h2 : ¬(timeoutMax < q) := by linarith
    constructor
    · intro r hr
      have hr0 : ¬(r = 0) := by
        rcases recommendedTimeoutVals lc r hr with rfl | rfl <;> norm_num
      by_cases hq : q < r / 10 <;>
        simp [validateTimeout, h1, h2, hr, hr0, hq]
    · intro hr
      simp [validateTimeout, h1, h2, hr]
  · intro hsmall
    simp [validateTimeout, hsmall]
  · intro v hnum hnull
    cases v with
    | num q' => exact absurd rfl (hnum q')
    | null => exact absurd rfl hnull
    | bool b => simp [validateTimeout]
    | str s => simp [validateTimeout]
    | arr xs => simp [validateTimeout]
    | obj fs => simp [validateTimeout]
  · intro h e herr
    unfold hookTimeoutDiag
    rw [herr]

/-- Witness for C4: `timeout = 700` yields the single range error
mentioning `600` and `700`; `timeout = 300` yields no error (and, for
`PreToolUse`, no warning since `300 ≥ 5/10`). -/
theorem timeoutRangeValidationWitness :
    validateTimeout (some (.num 700)) (("PreToolUse").data) =
      .err (.tooBig 600 700) ∧
    validateTimeout (some (.num 300)) (("PreToolUse").data) = .ok := by
  constructor
  · exact (timeoutRangeValidation (("PreToolUse").data) 700).1 (by decide)
  · have h := ((timeoutRangeValidation (("PreToolUse").data) 300).2.1
      (by decide) (by decide)).1 5 rfl
    rw [if_neg (by norm_num : ¬((300 : ℚ) < 5 / 10))] at h
    exact h

/-- Per-entry shape issues are never the count-mismatch error. -/
theorem pluginEntryIssuesNoCM (e : Json) :
    ∀ a ∈ pluginEntryIssues e, isCountMismatch a = false := by
  intro a ha
  cases a with
  | countMismatch d n =>
    exfalso
    cases e with
    | str s =>
      by_cases h1 : (("/").data.isSuffixOf s) = true <;>
        by_cases h2 : ((".md").data.isSuffixOf s) = true <;>
          simp [pluginEntryIssues, h1, h2] at ha
    | null => simp [pluginEntryIssues] at ha
    | bool b => simp [pluginEntryIssues] at ha
    | num q => simp [pluginEntryIssues] at ha
    | arr xs => simp [pluginEntryIssues] at ha
    | obj fs => simp [pluginEntryIssues] at ha
  | entryNotString ty => rfl
  | entryIsDir s => rfl
  | entryNotMd s => rfl
  | entryFileMissing s => rfl

/-- Per-entry existence issues are never the count-mismatch error. -/
theorem pluginExistsIssuesNoCM (exists1 : Str → Bool) (root : Str) (e : Json) :
    ∀ a ∈ pluginExistsIssues exists1 root e, isCountMismatch a = false := by
  intro a ha
  cases a with
  | countMismatch d n =>
    exfalso
    cases e <;> simp [pluginExistsIssues] at ha
  | entryNotString ty => rfl
  | entryIsDir s => rfl
  | entryNotMd s => rfl
  | entryFileMissing s => rfl

/-- C6: manifest/inventory cross-check. When the declared manifest length
and the on-disk inventory length differ (in either order) the checker
reports exactly one count-mismatch error carrying both counts; when they
agree and every entry is a string ending in `.md`, not ending in a path
separator, and resolving (against the plugin root) to an existing file,
it reports zero errors. -/
theorem manifestCountMismatch (agents : List Json) (files : List Str)
    (exists1 : Str → Bool) (root : Str) :
    (agents.length ≠ files.length →
      (validatePluginAgents agents files exists1 root).filter isCountMismatch =
        [.countMismatch agents.length files.length]) ∧
    (agents.length = files.length →
      (∀ e ∈ agents, ∃ s, e = .str s ∧ ((".md").data.isSuffixOf s) = true ∧
        (("/").data.isSuffixOf s) = false ∧ exists1 (pathJoin root s) = true) →
      validatePluginAgents agents files exists1 root = []) := by
  constructor
  · intro hne
    have hA : (agents.flatMap pluginEntryIssues).filter isCountMismatch = [] :=
      List.filter_eq_nil_iff.mpr (by
        intro a ha
        obtain ⟨e, he, hae⟩ := List.mem_flatMap.mp ha
        simp [pluginEntryIssuesNoCM e a hae])
    have hC : ((agents.flatMap (pluginExistsIssues exists1 root)).filter
        isCountMismatch) = [] :=
      List.filter_eq_nil_iff.mpr (by
        intro a ha
        obtain ⟨e, he, hae⟩ := List.mem_flatMap.mp ha
        simp [pluginExistsIssuesNoCM exists1 root e a hae])
    unfold validatePluginAgents
    rw [if_neg hne, List.filter_append, List.filter_append, hA, hC]
    rfl
  · intro heq hall
    unfold validatePluginAgents
    rw [if_pos heq]
    rw [flatMapNil _ _ (by
      intro e he
      obtain ⟨s, rfl, hmd, hdir, _⟩ := hall e he
      simp [pluginEntryIssues, hmd, hdir])]
    rw [flatMapNil _ _ (by
      intro e he
      obtain ⟨s, rfl, _, _, hex⟩ := hall e he
      simp [pluginExistsIssues, hex])]
    rfl

/-- Witness for C6: three declared entries against four files yields the
single `(3, 4)` count-mismatch error; one well-formed resolvable entry
against one file yields no error. -/
theorem manifestCountMismatchWitness :
    (validatePluginAgents
        [.str ("a.md").data, .str ("b.md").data, .str ("c.md").data]
        [("a.md").data, ("b.md").data, ("c.md").data, ("d.md").data]
        (fun _ => true) ("/r").data).filter isCountMismatch =
      [.countMismatch 3 4] ∧
    validatePluginAgents [.str ("a.md").data] [("a.md").data]
        (fun _ => true) ("/r").data = [] := by
  constructor
  · exact (manifestCountMismatch _ _ _ _).1 (by decide)
  · refine (manifestCountMismatch _ _ _ _).2 rfl ?_
    intro e he
    simp only [List.mem_singleton] at he
    subst he
    exact ⟨("a.md").data, rfl, by decide, by decide, rfl⟩

/-- Flattening an interspersed list with at least two segments exposes
the first separator. -/
theorem flattenIntersperseCons2 (b c : Str) (t : List Str) :
    (((b :: c :: t).intersperse ['|']).flatten) =
      b ++ '|' :: (((c :: t).intersperse ['|']).flatten) := by
  rw [List.intersperse_cons_cons]
  simp [List.flatten_cons]

/-- A pipe-joined segment list with a non-empty head or at least two
segments flattens to a non-empty string. -/
theorem flattenIntersperseNeNil (b : Str) (rest : List Str)
    (h : b ≠ [] ∨ rest ≠ []) :
    ((b :: rest).intersperse ['|']).flatten ≠ [] := by
  cases rest with
  | nil =>
    have hb : b ≠ [] := h.resolve_right (fun hc => hc rfl)
    simpa [List.intersperse] using hb
  | cons c t =>
    rw [flattenIntersperseCons2]
    simp

/-- Every character of a pipe-joined list of alphabetic segments is
alphabetic or a pipe. -/
theorem pipeTailAll (segs : List Str)
    (h : ∀ seg ∈ segs, ∀ c ∈ seg, c.isAlpha = true) :
    ∀ c ∈ ((segs.intersperse ['|']).flatten), (c.isAlpha || c = '|') = true := by
  induction segs with
  | nil => simp
  | cons a t ih =>
    cases t with
    | nil =>
      intro c hc
      simp only [List.intersperse, List.flatten_cons, List.flatten_nil,
        List.append_nil] at hc
      simp [h a (List.mem_cons_self a []) c hc]
    | cons b t' =>
      rw [flattenIntersperseCons2]
      intro c hc
      rcases List.mem_append.mp hc with hc | hc
      · simp [h a (List.mem_cons_self a (b :: t')) c hc]
      · rcases List.mem_cons.mp hc with rfl | hc'
        · simp
        · exact ih (fun seg hs => h seg (List.mem_cons_of_mem a hs)) c hc'

/-- The pipe-list pattern `^[A-Za-z]+\|[A-Za-z|]+$` matches a non-empty
alphabetic head segment joined by pipes to further alphabetic (possibly
empty) segments, provided something follows the first pipe. -/
theorem matchPipeListOfSegs (seg0 : Str) (segs' : List Str)
    (h0 : seg0 ≠ []) (h0a : ∀ c ∈ seg0, c.isAlpha = true)
    (hsegs : ∀ seg ∈ segs', ∀ c ∈ seg, c.isAlpha = true)
    (hb : ∃ b rest, segs' = b :: rest)
    (htail : ((segs'.intersperse ['|']).flatten) ≠ []) :
    matchPipeList (((seg0 :: segs').intersperse ['|']).flatten) = true := by
  obtain ⟨b, rest, rfl⟩ := hb
  rw [flattenIntersperseCons2]
  have hsp := takeWhileAppendEq Char.isAlpha seg0 '|'
    (((b :: rest).intersperse ['|']).flatten) h0a (by decide)
  unfold matchPipeList
  rw [hsp.1, hsp.2]
  simp only [h0, bne_iff_ne, ne_eq, not_false_eq_true, Bool.not_eq_true]
  have hall : (((b :: rest).intersperse ['|']).flatten).all
      (fun c => c.isAlpha || c = '|') = true :=
    List.all_eq_true.mpr (pipeTailAll (b :: rest) hsegs)
  simp [htail, hall, h0]

/-- The summary and exit code of a run over the one-matcher
configuration, in terms of the matcher diagnostics alone. -/
theorem oneMatcherSummary (E : Env) (s : Str) :
    (validateHooksConfig E (oneMatcherConfig s)).summary =
      ⟨(matcherIssues (some (.str s))).length, 0, 0⟩ ∧
    mainExitCode E [oneMatcherConfig s] =
      (if (matcherIssues (some (.str s))).length = 0 then 0 else 1) := by
  have h1 : (validateHooksConfig E (oneMatcherConfig s)).summary =
      ⟨(matcherIssues (some (.str s)) ++ []).length + 0, 0 + 0, 0 + 0⟩ := rfl
  have h2 : mainExitCode E [oneMatcherConfig s] =
      if ((matcherIssues (some (.str s)) ++ []).length + 0) + 0 = 0
      then 0 else 1 := rfl
  rw [List.append_nil] at h1 h2
  constructor
  · rw [h1]; simp
  · rw [h2]; simp

/-- A non-empty string passing the shape test is accepted by
`validateMatcher` with no diagnostic. -/
theorem validateMatcherOkOfShape (s : Str) (hne : s ≠ [])
    (hshape : matcherShapeOk s = true) :
    validateMatcher (some (.str s)) = .ok := by
  simp only [validateMatcher]
  rw [if_neg hne, if_pos hshape]

/-- Every matcher of one of the four claimed shapes passes
`validateMatcher` with no diagnostic. -/
theorem claimShapeAccepted (s : Str) (h : claimMatcherShape s) :
    validateMatcher (some (.str s)) = .ok := by
  rcases h with rfl | ⟨hne, hall⟩ | ⟨segs, hlen, hsegs, rfl⟩ |
    ⟨ident, arg, hne, hall, harg, rfl⟩
  · rfl
  · have hb : matchBareIdent s = true := by
      unfold matchBareIdent
      rw [List.all_eq_true.mpr hall]
      simp [hne]
    refine validateMatcherOkOfShape s hne ?_
    unfold matcherShapeOk
    rw [hb]
    simp
  · obtain ⟨seg0, segs', rfl⟩ : ∃ a t, segs = a :: t := by
      cases segs with
      | nil => simp at hlen
      | cons a t => exact ⟨a, t, rfl⟩
    obtain ⟨b, rest, rfl⟩ : ∃ b rest, segs' = b :: rest := by
      cases segs' with
      | nil => simp at hlen
      | cons b rest => exact ⟨b, rest, rfl⟩
    have h0 := hsegs seg0 (List.mem_cons_self _ _)
    have hbne := (hsegs b (List.mem_cons_of_mem _ (List.mem_cons_self _ _))).1
    have hm : matchPipeList (((seg0 :: b :: rest).intersperse ['|']).flatten)
        = true :=
      matchPipeListOfSegs seg0 (b :: rest) h0.1 h0.2
        (fun seg hs => (hsegs seg (List.mem_cons_of_mem _ hs)).2)
        ⟨b, rest, rfl⟩ (flattenIntersperseNeNil b rest (Or.inl hbne))
    refine validateMatcherOkOfShape _
      (flattenIntersperseNeNil seg0 (b :: rest) (Or.inl h0.1)) ?_
    unfold matcherShapeOk
    rw [hm]
    simp
  · rw [show ident ++ '(' :: arg ++ [')'] = ident ++ '(' :: (arg ++ [')'])
      by simp]
    have hsp := takeWhileAppendEq Char.isAlpha ident '(' (arg ++ [')'])
      hall (by decide)
    have hm : matchParen (ident ++ '(' :: (arg ++ [')'])) = true := by
      unfold matchParen
      rw [hsp.1, hsp.2]
      have harg' : (arg.all fun c => !(isLineTerm c)) = true :=
        List.all_eq_true.mpr (by
          intro x hx
          simp [harg x hx])
      simp [hne, List.getLast?_concat, List.dropLast_concat, harg']
    have hne2 : ident ++ '(' :: (arg ++ [')']) ≠ [] := by
      cases ident <;> simp
    refine validateMatcherOkOfShape _ hne2 ?_
    unfold matcherShapeOk
    rw [hm]
    simp

/-- Matcher diagnostics vanish exactly on an accepted matcher. -/
theorem matcherIssuesOfOk (m : Option Json) (h : validateMatcher m = .ok) :
    matcherIssues m = [] := by
  unfold matcherIssues
  rw [h]

/-- C2 counterexample: the matcher `invalid matcher!!` (outside the
grammar) is pushed into the entry's `issues`, counted as an *error* in
the per-source summary (`⟨1, 0, 0⟩`, zero warnings), and by itself makes
the run exit `1` — contradicting the claim that the diagnostic is a
non-fatal warning that cannot affect the exit status. Moreover the
claim's fourth shape read literally ("an identifier with a parenthesized
argument") is wider than the code: the JS dot refuses line terminators,
so the matcher `A(` + carriage return + `)` is rejected with the same
counted error. -/
theorem invalidMatcherCountsAsErrorCounterexample :
    validateMatcher (some (.str ("invalid matcher!!").data)) = .syntaxErr ∧
    (validateHooksConfig noFileEnv
      (oneMatcherConfig ("invalid matcher!!").data)).summary = ⟨1, 0, 0⟩ ∧
    mainExitCode noFileEnv [oneMatcherConfig ("invalid matcher!!").data] = 1 ∧
    validateMatcher (some (.str ("A(\r)").data)) = .syntaxErr ∧
    (validateHooksConfig noFileEnv
      (oneMatcherConfig ("A(\r)").data)).summary = ⟨1, 0, 0⟩ :=
  ⟨rfl, rfl, rfl, rfl, rfl⟩

/-- C2 amended: a matcher of one of the four accepted shapes — where the
parenthesized argument of the fourth shape must be free of the JS-dot
line terminators `\n`, `\r`, U+2028, U+2029 — produces no diagnostic; a
matcher string rejected by the grammar produces exactly one
*error-level* diagnostic, which is counted in the per-source error total
and by itself causes a failing exit status. The accepted grammar also
differs from the claimed shapes in the other direction: the pipe form
admits empty segments, see `pipeEmptySegmentsAccepted`. -/
theorem matcherGrammarSeverity (E : Env) (s : Str) :
    (claimMatcherShape s → validateMatcher (some (.str s)) = .ok) ∧
    (validateMatcher (some (.str s)) ≠ .ok →
      (validateHooksConfig E (oneMatcherConfig s)).summary = ⟨1, 0, 0⟩ ∧
      mainExitCode E [oneMatcherConfig s] = 1) := by
  constructor
  · exact claimShapeAccepted s
  · intro hne
    obtain ⟨hsum, hexit⟩ := oneMatcherSummary E s
    rcases matcherIssuesCases (some (.str s)) with ⟨hok, _⟩ | ⟨_, hlen⟩
    · exact absurd hok hne
    · rw [hlen] at hsum hexit
      exact ⟨hsum, by simpa using hexit⟩

/-- Witness for C2's amended statement: `Write|Edit` is accepted with no
diagnostic; `x!!` is rejected with a single counted error and exit 1. -/
theorem matcherGrammarSeverityWitness :
    validateMatcher (some (.str ("Write|Edit").data)) = .ok ∧
    (validateHooksConfig noFileEnv (oneMatcherConfig ("x!!").data)).summary
      = ⟨1, 0, 0⟩ ∧
    mainExitCode noFileEnv [oneMatcherConfig ("x!!").data] = 1 := by
  refine ⟨(matcherGrammarSeverity noFileEnv _).1 ?_,
    ((matcherGrammarSeverity noFileEnv _).2 (by decide)).1,
    ((matcherGrammarSeverity noFileEnv _).2 (by decide)).2⟩
  exact Or.inr (Or.inr (Or.inl ⟨[("Write").data, ("Edit").data],
    by decide, by decide, by decide⟩))

/-- C10: a matcher made of an alphabetic identifier followed by pipes
with one or more empty segments (at least two segments after the
identifier, some of them empty — e.g. `Write||` or `Write||Edit`) is
accepted by the pipe pattern: no diagnostic is emitted, the per-source
summary stays zero, and the run exits `0`. -/
theorem pipeEmptySegmentsAccepted (E : Env) (seg0 : Str) (segs' : List Str)
    (h0 : seg0 ≠ []) (h0a : ∀ c ∈ seg0, c.isAlpha = true)
    (hlen : 2 ≤ segs'.length)
    (hsegs : ∀ seg ∈ segs', ∀ c ∈ seg, c.isAlpha = true)
    (hempty : ∃ seg ∈ segs', seg = []) :
    validateMatcher (some (.str (((seg0 :: segs').intersperse ['|']).flatten)))
      = .ok ∧
    (validateHooksConfig E
      (oneMatcherConfig (((seg0 :: segs').intersperse ['|']).flatten))).summary
      = ⟨0, 0, 0⟩ ∧
    mainExitCode E
      [oneMatcherConfig (((seg0 :: segs').intersperse ['|']).flatten)] = 0 := by
  obtain ⟨b, c, t, rfl⟩ : ∃ b c t, segs' = b :: c :: t := by
    cases segs' with
    | nil => simp at hlen
    | cons b rest =>
      cases rest with
      | nil => simp at hlen
      | cons c t => exact ⟨b, c, t, rfl⟩
  have htail : (((b :: c :: t).intersperse ['|']).flatten) ≠ [] := by
    rw [flattenIntersperseCons2]
    simp
  have hm := matchPipeListOfSegs seg0 (b :: c :: t) h0 h0a hsegs
    ⟨b, c :: t, rfl⟩ htail
  have hok : validateMatcher
      (some (.str (((seg0 :: b :: c :: t).intersperse ['|']).flatten)))
        = .ok := by
    refine validateMatcherOkOfShape _
      (flattenIntersperseNeNil seg0 (b :: c :: t) (Or.inl h0)) ?_
    unfold matcherShapeOk
    rw [hm]
    simp
  have hmi := matcherIssuesOfOk _ hok
  obtain ⟨hsum, hexit⟩ := oneMatcherSummary E
    (((seg0 :: b :: c :: t).intersperse ['|']).flatten)
  rw [hmi] at hsum hexit
  exact ⟨hok, by simpa using hsum, by simpa using hexit⟩

/-- Witness for C10 at the concrete matchers `Write||` and
`Write||Edit`. -/
theorem pipeEmptySegmentsAcceptedWitness :
    validateMatcher (some (.str ("Write||").data)) = .ok ∧
    validateMatcher (some (.str ("Write||Edit").data)) = .ok :=
  ⟨(pipeEmptySegmentsAccepted noFileEnv ("Write").data [[], []]
      (by decide) (by decide) (by decide) (by decide) (by decide)).1,
   (pipeEmptySegmentsAccepted noFileEnv ("Write").data [[], ("Edit").data]
      (by decide) (by decide) (by decide) (by decide) (by decide)).1⟩

/-- A successful block extraction forces the document to open with the
delimiter line. -/
theorem fmExtractHead (doc : List Str) (b : List Str)
    (h : fmExtract doc = some b) : ∃ rest, doc = ("---").data :: rest := by
  cases doc with
  | nil => simp [fmExtract] at h
  | cons l0 rest =>
    cases rest with
    | nil => simp [fmExtract] at h
    | cons r0 rs =>
      by_cases hl : l0 = ("---").data
      · exact ⟨r0 :: rs, by rw [hl]⟩
      · simp [fmExtract, hl] at h

/-- C5 counterexample: a descriptor whose `tools:` line opens an empty
block list parses successfully; per the claim one required field
(`tools`) is "absent or empty", yet the validator reports zero schema
errors — the JS falsiness test `!data[field]` treats an empty array as
present. -/
theorem emptyToolsListCounterexample :
    (validateAgentLines emptyToolsDoc (("cx.md").data)).1 = [] ∧
    claimRequiredMissingCount emptyToolsDoc = 1 :=
  ⟨rfl, rfl⟩

/-- C5 amended: for a descriptor whose header parses and whose `model`
field (if any) raises no enumeration error, the error list is exactly one
schema error per required field that is absent or an *empty string* (an
empty list counts as present), in the fixed field order, with no
duplicates and no unrelated errors. -/
theorem requiredFieldErrorsExact (doc : List Str) (fn : Str) (data : FMap)
    (hp : parseFrontmatter doc = some data) (hm : modelIssues data = []) :
    (validateAgentLines doc fn).1 =
      (requiredFields.filter (fun f => fmFalsy (alookup f data))).map
        AgentIssue.missingField ∧
    ((validateAgentLines doc fn).1).Nodup := by
  have hex : ∃ b, fmExtract doc = some b := by
    unfold parseFrontmatter at hp
    cases hfe : fmExtract doc with
    | none => rw [hfe] at hp; simp at hp
    | some b => exact ⟨b, rfl⟩
  obtain ⟨b, hb⟩ := hex
  obtain ⟨rest, rfl⟩ := fmExtractHead _ b hb
  have hmain : (validateAgentLines (("---").data :: rest) fn).1 =
      (requiredFields.filter (fun f => fmFalsy (alookup f data))).map
        AgentIssue.missingField := by
    unfold validateAgentLines
    rw [show (match (("---").data :: rest : List Str) with
        | l :: _ => (("---").data.isPrefixOf l) | [] => false) = true from rfl]
    rw [hp]
    simp only [Bool.not_true, Bool.false_eq_true, if_false]
    rw [hm, List.append_nil]
    unfold requiredFieldIssues
    exact flatMapIfSingleton _ _ _
  refine ⟨hmain, ?_⟩
  rw [hmain]
  refine List.Nodup.map ?_ (List.Nodup.filter _ (by decide))
  intro a b hab
  simpa using hab

/-- Witness for C5's amended statement on the concrete empty-tools
descriptor (whose parsed header is spelled out explicitly). -/
theorem requiredFieldErrorsExactWitness :
    (validateAgentLines emptyToolsDoc (("cx.md").data)).1 =
      (requiredFields.filter (fun f => fmFalsy (alookup f
        [(("name").data, FMValue.str ("cx").data),
         (("description").data,
          FMValue.str ("a sufficiently long description here").data),
         (("tools").data, FMValue.arr [])]))).map AgentIssue.missingField :=
  (requiredFieldErrorsExact emptyToolsDoc (("cx.md").data)
    [(("name").data, FMValue.str ("cx").data),
     (("description").data,
      FMValue.str ("a sufficiently long description here").data),
     (("tools").data, FMValue.arr [])] rfl rfl).1

/-- C9: a document whose first line is not the delimiter, or in which no
line after the first ever begins with the closing delimiter `---`,
yields the distinguished no-header signal; the caller then records
exactly one structural error for that document (`缺少 YAML frontmatter`
or `YAML frontmatter 格式错误`), and the batch is a pointwise map — the
failing document never disturbs the validation of the documents before
or after it. -/
theorem noHeaderSignal (doc : List Str) (fn : Str)
    (h : doc.head? ≠ some (("---").data) ∨
         ∀ l ∈ doc.tail, (("---").data.isPrefixOf l) = false) :
    parseFrontmatter doc = none ∧
    (validateAgentLines doc fn).1.length = 1 ∧
    (∀ pre post : List (Str × List Str),
      validateAgentsBatch (pre ++ (fn, doc) :: post) =
        validateAgentsBatch pre ++
          (validateAgentLines doc fn) :: validateAgentsBatch post) := by
  have hpf : parseFrontmatter doc = none := by
    unfold parseFrontmatter
    suffices hfe : fmExtract doc = none by rw [hfe]; rfl
    cases doc with
    | nil => rfl
    | cons l0 rest =>
      cases rest with
      | nil => rfl
      | cons r0 rs =>
        rcases h with h1 | h2
        · have hl : ¬(l0 = ("---").data) := fun hc => h1 (by simp [hc])
          simp [fmExtract, hl]
        · have hfi : rs.findIdx? (fun l => ("---").data.isPrefixOf l) = none :=
            List.findIdx?_eq_none_iff.mpr (fun x hx =>
              h2 x (List.mem_cons_of_mem r0 hx))
          by_cases hl : l0 = ("---").data
          · simp [fmExtract, hl, hfi]
          · simp [fmExtract, hl]
  refine ⟨hpf, ?_, ?_⟩
  · unfold validateAgentLines
    split
    · rfl
    · rw [hpf]; rfl
  · intro pre post
    unfold validateAgentsBatch
    simp [List.map_append]

/-- Witness for C9 at a concrete document with an opening delimiter but
no closing one. -/
theorem noHeaderSignalWitness :
    parseFrontmatter [("---").data, ("name: a").data] = none ∧
    (validateAgentLines [("---").data, ("name: a").data]
      (("a.md").data)).1.length = 1 :=
  ⟨(noHeaderSignal [("---").data, ("name: a").data] (("a.md").data)
      (Or.inr (by decide))).1,
   (noHeaderSignal [("---").data, ("name: a").data] (("a.md").data)
      (Or.inr (by decide))).2.1⟩

/-! ## Round-trip development (C8): string-level lemmas -/

/-- The head surviving a `dropWhile` fails the predicate. -/
theorem headDropWhileNot {p : Char → Bool} :
    ∀ (l : Str) (c : Char), (l.dropWhile p).head? = some c → p c = false := by
  intro l
  induction l with
  | nil => intro c h; simp at h
  | cons a t ih =>
    intro c h
    rw [List.dropWhile_cons] at h
    by_cases hp : p a = true
    · rw [if_pos hp] at h; exact ih c h
    · rw [if_neg hp] at h
      simp only [List.head?_cons, Option.some.injEq] at h
      rw [← h]
      simpa using hp

/-- `rtrim` is a prefix of its argument. -/
theorem rtrimPrefix (l : Str) : rtrim l <+: l := by
  have h := List.dropWhile_suffix (l := l.reverse) isWsChar
  have h2 := List.reverse_prefix.mpr h
  rwa [List.reverse_reverse] at h2

/-- `ltrim` fixes a list with a non-whitespace head. -/
theorem ltrimEqOfHead (l : Str)
    (h : ∀ c, l.head? = some c → isWsChar c = false) : ltrim l = l := by
  cases l with
  | nil => rfl
  | cons a t =>
    unfold ltrim
    rw [List.dropWhile_cons, if_neg]
    simp [h a rfl]

/-- `rtrim` fixes a list with a non-whitespace last element. -/
theorem rtrimEqOfLast (l : Str)
    (h : ∀ c, l.getLast? = some c → isWsChar c = false) : rtrim l = l := by
  cases hrev : l.reverse with
  | nil =>
    have : l = [] := by simpa using congrArg List.reverse hrev
    rw [this]; rfl
  | cons c t =>
    have hc : l.getLast? = some c := by
      rw [← List.head?_reverse, hrev]; rfl
    unfold rtrim
    rw [hrev, List.dropWhile_cons, if_neg (by simp [h c hc])]
    rw [← hrev, List.reverse_reverse]

/-- A list equal to its own trim fixes `ltrim` as well. -/
theorem ltrimStableOfTrimStable (l : Str) (h : jsTrim l = l) : ltrim l = l := by
  have h1 : (jsTrim l).length ≤ (ltrim l).length := (rtrimPrefix _).length_le
  have h2 : (ltrim l).length ≤ l.length :=
    ((List.dropWhile_suffix _).sublist).length_le
  rw [h] at h1
  exact (List.dropWhile_suffix _).eq_of_length (le_antisymm h2 h1)

/-- A trim-stable non-empty list has a non-whitespace head. -/
theorem headNotWsOfTrimStable (l : Str) (c : Char) (h : jsTrim l = l)
    (hc : l.head? = some c) : isWsChar c = false := by
  have hlt := ltrimStableOfTrimStable l h
  cases l with
  | nil => simp at hc
  | cons a t =>
    simp only [List.head?_cons, Option.some.injEq] at hc
    subst hc
    by_cases hw : isWsChar a = true
    · exfalso
      unfold ltrim at hlt
      rw [List.dropWhile_cons, if_pos hw] at hlt
      have := congrArg List.length hlt
      have h3 : (t.dropWhile isWsChar).length ≤ t.length :=
        ((List.dropWhile_suffix _).sublist).length_le
      simp at this
      omega
    · simpa using hw

/-- A list with non-whitespace head and last is trim-stable. -/
theorem jsTrimEqSelf (l : Str)
    (h1 : ∀ c, l.head? = some c → isWsChar c = false)
    (h2 : ∀ c, l.getLast? = some c → isWsChar c = false) : jsTrim l = l := by
  unfold jsTrim
  rw [ltrimEqOfHead l h1]
  exact rtrimEqOfLast l h2

/-- A leading space disappears under `jsTrim`. -/
theorem jsTrimSpaceCons (l : Str) : jsTrim (' ' :: l) = jsTrim l := by
  unfold jsTrim ltrim
  rw [List.dropWhile_cons, if_pos (by rfl)]

/-- The last element surviving `rtrim` is not whitespace. -/
theorem rtrimLastNotWs (l : Str) (c : Char)
    (h : (rtrim l).getLast? = some c) : isWsChar c = false := by
  rw [← List.head?_reverse] at h
  unfold rtrim at h
  rw [List.reverse_reverse] at h
  exact headDropWhileNot _ c h

/-- A non-empty prefix shares its head with the larger list. -/
theorem headOfPrefix (a l : Str) (h : a <+: l) (c : Char)
    (hc : a.head? = some c) : l.head? = some c := by
  obtain ⟨t, rfl⟩ := h
  rw [List.head?_append_of_ne_nil]
  · exact hc
  · intro he; rw [he] at hc; simp at hc

/-- `jsTrim` is idempotent. -/
theorem jsTrimIdem (l : Str) : jsTrim (jsTrim l) = jsTrim l := by
  refine jsTrimEqSelf _ ?_ ?_
  · intro c hc
    unfold jsTrim at hc
    have := headOfPrefix _ _ (rtrimPrefix (ltrim l)) c hc
    exact headDropWhileNot _ c this
  · intro c hc
    exact rtrimLastNotWs _ c hc

/-- Every character of `jsTrim l` occurs in `l`. -/
theorem memOfJsTrim (l : Str) (c : Char) (h : c ∈ jsTrim l) : c ∈ l := by
  have h1 : c ∈ ltrim l :=
    List.Sublist.mem h ((rtrimPrefix (ltrim l)).sublist)
  exact List.Sublist.mem h1 ((List.dropWhile_suffix _).sublist)

/-- Auxiliary form of the first-colon computation with an explicit start
index. -/
theorem findIdxColonAux (rest : Str) :
    ∀ (k : Str) (i : ℕ), ':' ∉ k →
      List.findIdx? (· = ':') (k ++ ':' :: rest) i = some (i + k.length) := by
  intro k
  induction k with
  | nil =>
    intro i _
    rw [List.nil_append, List.findIdx?_cons, if_pos (by simp)]
    simp
  | cons a t ih =>
    intro i hk
    have ha : ¬(a = ':') := fun hc => hk (hc ▸ List.mem_cons_self a t)
    rw [List.cons_append, List.findIdx?_cons, if_neg (by simpa using ha),
      ih (i + 1) (fun hc => hk (List.mem_cons_of_mem a hc))]
    simp only [List.length_cons, Option.some.injEq]
    omega

/-- The first colon of `key ++ ':' :: rest` is at the key's length when
the key is colon-free. -/
theorem findIdxColon (k : Str) (rest : Str) (hk : ':' ∉ k) :
    List.findIdx? (· = ':') (k ++ ':' :: rest) = some k.length := by
  simpa using findIdxColonAux rest k 0 hk

/-- `findIdx?` yields an index at least the start index. -/
theorem findIdxGeAux {α : Type} (p : α → Bool) :
    ∀ (l : List α) (s i : ℕ), List.findIdx? p l s = some i → s ≤ i := by
  intro l
  induction l with
  | nil => intro s i h; simp [List.findIdx?] at h
  | cons a t ih =>
    intro s i h
    rw [List.findIdx?_cons] at h
    by_cases hp : p a = true
    · rw [if_pos hp] at h; simp at h; omega
    · rw [if_neg hp] at h
      have := ih (s + 1) i h
      omega

/-- Elements strictly before a `findIdx?` hit fail the predicate. -/
theorem findIdxTakeFalseAux {α : Type} (p : α → Bool) :
    ∀ (l : List α) (s i : ℕ), List.findIdx? p l s = some i →
      ∀ x ∈ l.take (i - s), p x = false := by
  intro l
  induction l with
  | nil => intro s i _ x hx; simp at hx
  | cons a t ih =>
    intro s i h x hx
    rw [List.findIdx?_cons] at h
    by_cases hp : p a = true
    · rw [if_pos hp] at h
      simp only [Option.some.injEq] at h
      rw [← h] at hx
      simp at hx
    · rw [if_neg hp] at h
      have hge := findIdxGeAux p t (s + 1) i h
      have : i - s = (i - (s + 1)) + 1 := by omega
      rw [this, List.take_succ_cons] at hx
      rcases List.mem_cons.mp hx with rfl | hx'
      · simpa using hp
      · exact ih (s + 1) i h x hx'

/-- Elements strictly before a `findIdx?` hit fail the predicate (from
the default start index). -/
theorem findIdxTakeFalse {α : Type} (p : α → Bool) (l : List α) (i : ℕ)
    (h : List.findIdx? p l = some i) : ∀ x ∈ l.take i, p x = false := by
  have := findIdxTakeFalseAux p l 0 i h
  simpa using this

/-- `findIdx?` over a clean prefix followed by a hit, with explicit start
index. -/
theorem findIdxAppendLastAux {α : Type} (p : α → Bool) (x : α)
    (r : List α) (hx : p x = true) :
    ∀ (a : List α) (s : ℕ), (∀ l ∈ a, p l = false) →
      List.findIdx? p (a ++ x :: r) s = some (s + a.length) := by
  intro a
  induction a with
  | nil =>
    intro s _
    rw [List.nil_append, List.findIdx?_cons, if_pos hx]
    simp
  | cons b t ih =>
    intro s h
    rw [List.cons_append, List.findIdx?_cons,
      if_neg (by simp [h b (List.mem_cons_self b t)]),
      ih (s + 1) (fun l hl => h l (List.mem_cons_of_mem b hl))]
    simp only [List.length_cons, Option.some.injEq]
    omega

/-- `findIdx?` over a clean prefix followed by a hit. -/
theorem findIdxAppendLast {α : Type} (p : α → Bool) (x : α) (r a : List α)
    (hx : p x = true) (h : ∀ l ∈ a, p l = false) :
    List.findIdx? p (a ++ x :: r) = some a.length := by
  simpa using findIdxAppendLastAux p x r hx a 0 h

/-- Unfolding equation for `upsert` on a cons cell. -/
theorem upsertCons {α : Type} (k' : Str) (v' : α) (t : List (Str × α))
    (k : Str) (v : α) :
    upsert ((k', v') :: t) k v =
      if k' = k then (k', v) :: t else (k', v') :: upsert t k v := rfl

/-- Unfolding equation for `alookup` on a cons cell. -/
theorem alookupCons {α : Type} (k' : Str) (v' : α) (t : List (Str × α))
    (k : Str) :
    alookup k ((k', v') :: t) =
      if k' = k then some v' else alookup k t := rfl

/-- A fresh-key `upsert` appends. -/
theorem upsertFresh {α : Type} (d : List (Str × α)) (k : Str) (v : α)
    (h : k ∉ d.map Prod.fst) : upsert d k v = d ++ [(k, v)] := by
  induction d with
  | nil => rfl
  | cons p t ih =>
    obtain ⟨k', v'⟩ := p
    have hne : ¬(k' = k) := by
      intro hc
      refine h ?_
      rw [← hc, List.map_cons]
      exact List.mem_cons_self _ _
    have h' : k ∉ List.map Prod.fst t := by
      intro hc
      refine h ?_
      rw [List.map_cons]
      exact List.mem_cons_of_mem _ hc
    rw [upsertCons, if_neg hne, ih h']
    rfl

/-- Lookup skips bindings with fresh keys. -/
theorem alookupFreshAppend {α : Type} (d l : List (Str × α)) (k : Str)
    (h : k ∉ d.map Prod.fst) : alookup k (d ++ l) = alookup k l := by
  induction d with
  | nil => rfl
  | cons p t ih =>
    obtain ⟨k', v'⟩ := p
    have hne : ¬(k' = k) := by
      intro hc
      refine h ?_
      rw [← hc, List.map_cons]
      exact List.mem_cons_self _ _
    have h' : k ∉ List.map Prod.fst t := by
      intro hc
      refine h ?_
      rw [List.map_cons]
      exact List.mem_cons_of_mem _ hc
    rw [List.cons_append, alookupCons, if_neg hne]
    exact ih h'

/-- Lookup after `upsert` finds the written value. -/
theorem alookupUpsert {α : Type} (d : List (Str × α)) (k : Str) (v : α) :
    alookup k (upsert d k v) = some v := by
  induction d with
  | nil => simp [upsert, alookup]
  | cons p t ih =>
    obtain ⟨k', v'⟩ := p
    rw [upsertCons]
    by_cases hp : k' = k
    · rw [if_pos hp, alookupCons, if_pos hp]
    · rw [if_neg hp, alookupCons, if_neg hp]
      exact ih

/-- Rewriting the last, fresh binding in place. -/
theorem upsertLast {α : Type} (d : List (Str × α)) (k : Str) (v w : α)
    (h : k ∉ d.map Prod.fst) : upsert (d ++ [(k, v)]) k w = d ++ [(k, w)] := by
  induction d with
  | nil => simp [upsert]
  | cons p t ih =>
    obtain ⟨k', v'⟩ := p
    have hne : ¬(k' = k) := by
      intro hc
      refine h ?_
      rw [← hc, List.map_cons]
      exact List.mem_cons_self _ _
    have h' : k ∉ List.map Prod.fst t := by
      intro hc
      refine h ?_
      rw [List.map_cons]
      exact List.mem_cons_of_mem _ hc
    rw [List.cons_append, upsertCons, if_neg hne, ih h']
    rfl

/-- An `upsert` can only add the written key. -/
theorem memKeysUpsert {α : Type} (d : List (Str × α)) (k a : Str) (v : α)
    (h : a ∈ (upsert d k v).map Prod.fst) : a ∈ d.map Prod.fst ∨ a = k := by
  induction d with
  | nil =>
    rw [show upsert ([] : List (Str × α)) k v = [(k, v)] from rfl,
      List.map_cons, List.map_nil] at h
    rcases List.mem_cons.mp h with h1 | h1
    · exact Or.inr h1
    · simp at h1
  | cons p t ih =>
    obtain ⟨k', v'⟩ := p
    rw [upsertCons] at h
    by_cases hp : k' = k
    · rw [if_pos hp] at h
      simp only [List.map_cons, List.mem_cons] at h
      rcases h with h | h
      · exact Or.inr (h.trans hp)
      · exact Or.inl (by
          rw [List.map_cons]
          exact List.mem_cons_of_mem _ h)
    · rw [if_neg hp] at h
      simp only [List.map_cons, List.mem_cons] at h
      rcases h with h | h
      · exact Or.inl (by
          rw [List.map_cons, h]
          exact List.mem_cons_self _ _)
      · rcases ih h with h' | h'
        · exact Or.inl (by
            rw [List.map_cons]
            exact List.mem_cons_of_mem _ h')
        · exact Or.inr h'

/-- An `upsert` of a present key leaves the key list unchanged. -/
theorem upsertKeysOfMem {α : Type} (d : List (Str × α)) (k : Str) (v : α)
    (h : k ∈ d.map Prod.fst) :
    (upsert d k v).map Prod.fst = d.map Prod.fst := by
  induction d with
  | nil => simp at h
  | cons p t ih =>
    obtain ⟨k', v'⟩ := p
    rw [upsertCons]
    by_cases hp : k' = k
    · rw [if_pos hp]; rfl
    · rw [if_neg hp]
      simp only [List.map_cons, List.cons.injEq, true_and]
      refine ih ?_
      simp only [List.map_cons, List.mem_cons] at h
      rcases h with h | h
      · exact absurd h.symm hp
      · exact h

/-- `upsert` preserves well-formedness of the data object. -/
theorem goodDataUpsert (d : FMap) (k : Str) (v : FMValue)
    (hd : GoodData d) (hk : GoodKey k) (hv : GoodVal v) :
    GoodData (upsert d k v) := by
  by_cases hmem : k ∈ d.map Prod.fst
  · constructor
    · intro p hp
      induction d with
      | nil => simp at hmem
      | cons q t ih =>
        obtain ⟨k', v'⟩ := q
        rw [upsertCons] at hp
        by_cases hq : k' = k
        · rw [if_pos hq] at hp
          rcases List.mem_cons.mp hp with rfl | hp'
          · exact ⟨hq ▸ hk, hv⟩
          · exact hd.1 _ (List.mem_cons_of_mem _ hp')
        · rw [if_neg hq] at hp
          rcases List.mem_cons.mp hp with rfl | hp'
          · exact hd.1 _ (List.mem_cons_self _ _)
          · by_cases hmem' : k ∈ t.map Prod.fst
            · refine ih ⟨fun r hr => hd.1 r (List.mem_cons_of_mem _ hr), ?_⟩
                hmem' hp'
              have := hd.2
              rw [List.map_cons, List.nodup_cons] at this
              exact this.2
            · rw [upsertFresh t k v hmem'] at hp'
              rcases List.mem_append.mp hp' with hp'' | hp''
              · exact hd.1 _ (List.mem_cons_of_mem _ hp'')
              · simp only [List.mem_singleton] at hp''
                subst hp''
                exact ⟨hk, hv⟩
    · rw [upsertKeysOfMem d k v hmem]
      exact hd.2
  · rw [upsertFresh d k v hmem]
    constructor
    · intro p hp
      rcases List.mem_append.mp hp with hp' | hp'
      · exact hd.1 _ hp'
      · simp only [List.mem_singleton] at hp'
        subst hp'
        exact ⟨hk, hv⟩
    · rw [List.map_append, List.nodup_append]
      exact ⟨hd.2, List.nodup_singleton _, by
        intro a ha hb
        simp only [List.map_cons, List.map_nil, List.mem_singleton] at hb
        subst hb
        exact hmem ha⟩

/-- `jsSplit` never returns the empty list of pieces. -/
theorem jsSplitNeNil (sep : Char) : ∀ (l : Str), jsSplit sep l ≠ [] := by
  intro l
  induction l with
  | nil => simp [jsSplit]
  | cons a t ih =>
    unfold jsSplit
    cases h : jsSplit sep t with
    | nil => simp
    | cons p r =>
      by_cases ha : a = sep <;> simp [ha]

/-- A separator-free string splits into itself. -/
theorem jsSplitSingle (sep : Char) (l : Str) (h : sep ∉ l) :
    jsSplit sep l = [l] := by
  induction l with
  | nil => rfl
  | cons a t ih =>
    have ha : ¬(a = sep) := fun hc => h (hc ▸ List.mem_cons_self a t)
    unfold jsSplit
    rw [ih (fun hc => h (List.mem_cons_of_mem a hc))]
    simp [ha]

/-- Unfolding equation for `jsSplit` on a cons cell. -/
theorem jsSplitCons (sep a : Char) (t : Str) :
    jsSplit sep (a :: t) =
      match jsSplit sep t with
      | [] => [[]]
      | h :: r => if a = sep then [] :: h :: r else (a :: h) :: r := rfl

/-- Splitting at the first separator after a separator-free piece. -/
theorem jsSplitSep (sep : Char) (p rest : Str) (hp : sep ∉ p) :
    jsSplit sep (p ++ sep :: rest) = p :: jsSplit sep rest := by
  induction p with
  | nil =>
    rw [List.nil_append, jsSplitCons]
    cases h : jsSplit sep rest with
    | nil => exact absurd h (jsSplitNeNil sep rest)
    | cons q r => simp
  | cons a t ih =>
    have ha : ¬(a = sep) := fun hc => hp (hc ▸ List.mem_cons_self a t)
    rw [List.cons_append, jsSplitCons,
      ih (fun hc => hp (List.mem_cons_of_mem a hc))]
    simp [ha]

/-- Flattening an interspersed list with at least two pieces exposes the
first separator (generic separator form). -/
theorem flattenIntersperseSep (sep : Char) (b c : Str) (t : List Str) :
    (((b :: c :: t).intersperse [sep]).flatten) =
      b ++ sep :: (((c :: t).intersperse [sep]).flatten) := by
  rw [List.intersperse_cons_cons]
  simp [List.flatten_cons]

/-- Splitting recovers the pieces of a separator-joined list. -/
theorem jsSplitIntercalate (sep : Char) :
    ∀ (ps : List Str), ps ≠ [] → (∀ p ∈ ps, sep ∉ p) →
      jsSplit sep ((ps.intersperse [sep]).flatten) = ps := by
  intro ps
  induction ps with
  | nil => intro h; exact absurd rfl h
  | cons p t ih =>
    intro _ hall
    cases t with
    | nil =>
      simp only [List.intersperse, List.flatten_cons, List.flatten_nil,
        List.append_nil]
      exact jsSplitSingle sep p (hall p (List.mem_cons_self p []))
    | cons q r =>
      rw [flattenIntersperseSep]
      rw [jsSplitSep sep p _ (hall p (List.mem_cons_self p (q :: r)))]
      rw [ih (by simp) (fun x hx => hall x (List.mem_cons_of_mem p hx))]

/-- Stripping quotes from a double-quoted quote-free string recovers
it. -/
theorem stripQuotesQuoted (x : Str) (h1 : '"' ∉ x) (h2 : '\'' ∉ x) :
    stripQuotes ('"' :: x ++ ['"']) = x := by
  unfold stripQuotes
  rw [List.filter_append, List.filter_cons_of_neg (by decide)]
  rw [List.filter_eq_self.mpr (by
    intro c hc
    have hc1 : ¬(c = '"') := fun h => h1 (h ▸ hc)
    have hc2 : ¬(c = '\'') := fun h => h2 (h ▸ hc)
    simp [hc1, hc2])]
  simp

/-- The inner slice of a one-character-wrapped string. -/
theorem sliceInnerWrapped (a b : Char) (s : Str) :
    sliceInner (a :: s ++ [b]) = s := by
  unfold sliceInner
  show (s ++ [b]).dropLast = s
  exact List.dropLast_concat

/-- `classifyValue` on the empty value: enter array mode with an empty
accumulator. -/
theorem classifyEmptyEq (d : FMap) (k : Str) :
    classifyValue d k [] = (upsert d k (.arr []), .array k) := rfl

/-- `classifyValue` on a double-quoted scalar: unwrap the quotes. -/
theorem classifyQuotedEq (d : FMap) (k : Str) (s : Str) :
    classifyValue d k ('"' :: s ++ ['"']) = (upsert d k (.str s), .top) := by
  have hl : ('"' :: s ++ ['"']).getLast? = some '"' :=
    List.getLast?_concat _
  unfold classifyValue
  simp only [hl]
  show (upsert d k (.str (sliceInner ('"' :: s ++ ['"']))), PMode.top) = _
  rw [show sliceInner ('"' :: s ++ ['"']) = s from sliceInnerWrapped _ _ _]

/-- `classifyValue` on a serialized inline list of quoted, comma- and
quote-free items: recover exactly the items. -/
theorem classifyInlineEq (d : FMap) (k : Str) (xs : List Str)
    (hne : xs ≠ [])
    (hcf : ∀ x ∈ xs, ',' ∉ x ∧ '"' ∉ x ∧ '\'' ∉ x) :
    classifyValue d k
      ('[' :: ((xs.map (fun x => '"' :: x ++ ['"'])).intersperse [',']).flatten
        ++ [']']) = (upsert d k (.arr xs), .top) := by
  set flat := ((xs.map (fun x => '"' :: x ++ ['"'])).intersperse [',']).flatten
    with hflat
  have hpre : (("[").data.isPrefixOf ('[' :: flat ++ [']'])) = true := by
    rw [List.isPrefixOf_iff_prefix]
    exact ⟨flat ++ [']'], rfl⟩
  have hsuf : (("]").data.isSuffixOf ('[' :: flat ++ [']'])) = true := by
    rw [List.isSuffixOf_iff_suffix]
    exact ⟨'[' :: flat, by simp⟩
  have hslice : sliceInner ('[' :: flat ++ [']']) = flat :=
    sliceInnerWrapped _ _ _
  have hsplit : jsSplit ',' flat = xs.map (fun x => '"' :: x ++ ['"']) := by
    rw [hflat]
    refine jsSplitIntercalate ',' _ (by simpa using hne) ?_
    intro p hp
    obtain ⟨x, hx, rfl⟩ := List.mem_map.mp hp
    intro hmem
    rcases List.mem_append.mp hmem with hq | hq
    · rcases List.mem_cons.mp hq with hq' | hq'
      · exact absurd hq' (by decide)
      · exact (hcf x hx).1 hq'
    · simp at hq
  have hmap : (xs.map (fun x => '"' :: x ++ ['"'])).map
      (fun s => stripQuotes (jsTrim s)) = xs := by
    rw [List.map_map]
    have : ∀ x ∈ xs, ((fun s => stripQuotes (jsTrim s)) ∘
        (fun x => '"' :: x ++ ['"'])) x = x := by
      intro x hx
      have htr : jsTrim ('"' :: x ++ ['"']) = '"' :: x ++ ['"'] := by
        refine jsTrimEqSelf _ ?_ ?_
        · intro c hc
          rw [List.cons_append, List.head?_cons] at hc
          simp only [Option.some.injEq] at hc
          subst hc; rfl
        · intro c hc
          rw [List.getLast?_concat] at hc
          simp only [Option.some.injEq] at hc
          subst hc; rfl
      simp only [Function.comp_apply, htr]
      exact stripQuotesQuoted x (hcf x hx).2.1 (hcf x hx).2.2
    calc (xs.map _) = xs.map id := List.map_congr_left this
    _ = xs := List.map_id xs
  unfold classifyValue
  simp only [hpre, hsuf]
  show (upsert d k (.arr ((jsSplit ','
    (sliceInner ('[' :: flat ++ [']']))).map
      (fun s => stripQuotes (jsTrim s)))), PMode.top) = _
  rw [hslice, hsplit, hmap]

/-! ## Round-trip development (C8): key lines and item lines -/

/-- A colon-free pattern that prefixes `k ++ ':' :: rest` already
prefixes `k`. -/
theorem prefixAppendColon :
    ∀ (pat k rest : Str), ':' ∉ pat → pat <+: k ++ ':' :: rest → pat <+: k := by
  intro pat
  induction pat with
  | nil => intro k rest _ _; exact List.nil_prefix
  | cons p ps ih =>
    intro k rest hc h
    cases k with
    | nil =>
      rw [List.nil_append] at h
      have h1 : p = ':' := (List.cons_prefix_cons.mp h).1
      subst h1
      exact absurd (List.mem_cons_self _ _) hc
    | cons a ks =>
      rw [List.cons_append] at h
      obtain ⟨h1, h2⟩ := List.cons_prefix_cons.mp h
      exact List.cons_prefix_cons.mpr
        ⟨h1, ih ks rest (fun hm => hc (List.mem_cons_of_mem p hm)) h2⟩

/-- `keyLine` on a serialized binding line with a good key reduces to
classification of the trimmed value. -/
theorem keyLineSerialized (d : FMap) (k : Str) (hk : GoodKey k) (rest : Str) :
    keyLine d (k ++ ':' :: rest) = classifyValue d k (jsTrim rest) := by
  obtain ⟨hne, htr, hcf⟩ := hk
  have htake : jsTrim ((k ++ ':' :: rest).take k.length) = k := by
    rw [List.take_left]; exact htr
  have hdrop : (k ++ ':' :: rest).drop (k.length + 1) = rest := by
    rw [show k ++ ':' :: rest = (k ++ [':']) ++ rest by simp,
      show k.length + 1 = (k ++ [':']).length by simp]
    exact List.drop_left _ _
  unfold keyLine
  rw [findIdxColon _ _ hcf]
  split
  · next hcond => exact absurd hcond (by simp)
  · next i hcond =>
    have hi : List.length k = i := by injection hcond
    subst hi
    simp only [htake, hdrop]
    split
    · next hc2 =>
      exfalso
      cases k with
      | nil => exact hne rfl
      | cons a t =>
        have hws : isWsChar a = false := headNotWsOfTrimStable _ a htr rfl
        simp [hws] at hc2
    · rfl

/-- A double-quoted value is trim-stable. -/
theorem jsTrimQuoted (s : Str) : jsTrim ('"' :: s ++ ['"']) = '"' :: s ++ ['"'] := by
  refine jsTrimEqSelf _ ?_ ?_
  · intro c hc
    rw [List.cons_append, List.head?_cons] at hc
    simp only [Option.some.injEq] at hc
    subst hc; rfl
  · intro c hc
    rw [List.getLast?_concat] at hc
    simp only [Option.some.injEq] at hc
    subst hc; rfl

/-- A bracketed value is trim-stable. -/
theorem jsTrimBracketed (s : Str) : jsTrim ('[' :: s ++ [']']) = '[' :: s ++ [']'] := by
  refine jsTrimEqSelf _ ?_ ?_
  · intro c hc
    rw [List.cons_append, List.head?_cons] at hc
    simp only [Option.some.injEq] at hc
    subst hc; rfl
  · intro c hc
    rw [List.getLast?_concat] at hc
    simp only [Option.some.injEq] at hc
    subst hc; rfl

/-- `keyLine` on a serialized quoted-scalar binding. -/
theorem keyLineQuoted (d : FMap) (k : Str) (hk : GoodKey k) (s : Str) :
    keyLine d (k ++ ':' :: ' ' :: '"' :: s ++ ['"']) =
      (upsert d k (.str s), .top) := by
  rw [show (k ++ ':' :: ' ' :: '"' :: s ++ ['"'])
      = k ++ ':' :: (' ' :: ('"' :: s ++ ['"'])) by simp,
    keyLineSerialized d k hk _, jsTrimSpaceCons, jsTrimQuoted]
  exact classifyQuotedEq d k s

/-- `keyLine` on a serialized block-list header. -/
theorem keyLineBlockHead (d : FMap) (k : Str) (hk : GoodKey k) :
    keyLine d (k ++ [':']) = (upsert d k (.arr []), .array k) := by
  rw [show (k ++ [':']) = k ++ ':' :: ([] : Str) by simp,
    keyLineSerialized d k hk _]
  exact classifyEmptyEq d k

/-- `keyLine` on a serialized inline-list binding. -/
theorem keyLineInline (d : FMap) (k : Str) (hk : GoodKey k) (xs : List Str)
    (hne : xs ≠ [])
    (hcf : ∀ x ∈ xs, ',' ∉ x ∧ '"' ∉ x ∧ '\'' ∉ x) :
    keyLine d (k ++ ':' :: ' ' :: '[' ::
        ((xs.map (fun x => '"' :: x ++ ['"'])).intersperse [',']).flatten
        ++ [']']) =
      (upsert d k (.arr xs), .top) := by
  rw [show (k ++ ':' :: ' ' :: '[' ::
        ((xs.map (fun x => '"' :: x ++ ['"'])).intersperse [',']).flatten
        ++ [']'])
      = k ++ ':' :: (' ' :: ('[' ::
        ((xs.map (fun x => '"' :: x ++ ['"'])).intersperse [',']).flatten
        ++ [']'])) by simp,
    keyLineSerialized d k hk _, jsTrimSpaceCons, jsTrimBracketed]
  exact classifyInlineEq d k xs hne hcf

/-- A line whose head is not whitespace is no array item. -/
theorem arrayItemOfNoneOfHead (line : Str)
    (h : (match line.head? with | some c => isWsChar c | none => false) = false) :
    arrayItemOf line = none := by
  unfold arrayItemOf
  cases line with
  | nil => rfl
  | cons a t =>
    simp only [List.head?_cons] at h
    simp only [List.takeWhile_cons, h]
    rfl

/-- On a line that does not start with whitespace, a scanner step in any
mode reduces to the key-line processing. -/
theorem parseStepKeyAny (d : FMap) (mode : PMode) (line : Str)
    (h : (match line.head? with | some c => isWsChar c | none => false) = false) :
    parseStep (d, mode) line = keyLine d line := by
  cases mode with
  | top => rfl
  | array k =>
    unfold parseStep
    rw [arrayItemOfNoneOfHead line h]
  | string k =>
    unfold parseStep
    rw [h]
    simp

/-- A serialized key line (key followed by a colon) does not start with
whitespace. -/
theorem keyLineHeadNotWs (k : Str) (hk : GoodKey k) (rest : Str) :
    (match (k ++ ':' :: rest).head? with
      | some c => isWsChar c | none => false) = false := by
  obtain ⟨hne, htr, _⟩ := hk
  cases k with
  | nil => exact absurd rfl hne
  | cons a t =>
    have hws : isWsChar a = false := headNotWsOfTrimStable _ a htr rfl
    rw [List.cons_append, List.head?_cons]
    exact hws

/-- The scanner step in array mode on a serialized block-list item pushes
the item. -/
theorem parseStepItem (d : FMap) (k : Str) (x : Str) (hx : jsTrim x = x) :
    parseStep (d, .array k) (' ' :: ' ' :: '-' :: ' ' :: x) =
      (arrPush d k x, .array k) := by
  have hitem : arrayItemOf (' ' :: ' ' :: '-' :: ' ' :: x) =
      some (x.dropWhile isWsChar) := by
    unfold arrayItemOf
    simp [show isWsChar ' ' = true from rfl, show isWsChar '-' = false from rfl]
  have hdw : x.dropWhile isWsChar = x := ltrimStableOfTrimStable x hx
  unfold parseStep
  rw [hitem, hdw]
  simp only [hx]

/-! ## Round-trip development (C8): folding serialized bindings -/

/-- Rewriting a key with its current value is the identity. -/
theorem upsertLookupSelf {α : Type} (d : List (Str × α)) (k : Str) (v : α)
    (h : alookup k d = some v) : upsert d k v = d := by
  induction d with
  | nil => simp [alookup] at h
  | cons p t ih =>
    obtain ⟨k', v'⟩ := p
    rw [alookupCons] at h
    rw [upsertCons]
    by_cases hp : k' = k
    · rw [if_pos hp] at h
      rw [if_pos hp]
      simp only [Option.some.injEq] at h
      rw [h]
    · rw [if_neg hp] at h
      rw [if_neg hp, ih h]

/-- Two successive writes to one key collapse to the second. -/
theorem upsertUpsert {α : Type} (d : List (Str × α)) (k : Str) (v w : α) :
    upsert (upsert d k v) k w = upsert d k w := by
  induction d with
  | nil => simp [upsert]
  | cons p t ih =>
    obtain ⟨k', v'⟩ := p
    rw [upsertCons]
    by_cases hp : k' = k
    · rw [if_pos hp, upsertCons, if_pos hp, upsertCons, if_pos hp]
    · rw [if_neg hp, upsertCons, if_neg hp, upsertCons, if_neg hp, ih]

/-- Pushing onto a key that holds a known array. -/
theorem arrPushLookup (d : FMap) (k : Str) (ys : List Str) (x : Str)
    (h : alookup k d = some (.arr ys)) :
    arrPush d k x = upsert d k (.arr (ys ++ [x])) := by
  unfold arrPush
  rw [h]

/-- Folding the serialized item lines of a block list accumulates exactly
the items. -/
theorem foldItems (k : Str) :
    ∀ (xs : List Str) (d : FMap) (acc : List Str),
      (∀ x ∈ xs, jsTrim x = x) →
      alookup k d = some (.arr acc) →
      List.foldl parseStep (d, .array k)
        (xs.map (fun x => ' ' :: ' ' :: '-' :: ' ' :: x)) =
        (upsert d k (.arr (acc ++ xs)), .array k) := by
  intro xs
  induction xs with
  | nil =>
    intro d acc _ h
    simp only [List.map_nil, List.foldl_nil, List.append_nil]
    rw [upsertLookupSelf d k _ h]
  | cons x t ih =>
    intro d acc hall h
    rw [List.map_cons, List.foldl_cons,
      parseStepItem d k x (hall x (List.mem_cons_self x t)),
      arrPushLookup d k acc x h,
      ih (upsert d k (.arr (acc ++ [x]))) (acc ++ [x])
        (fun y hy => hall y (List.mem_cons_of_mem x hy)) (alookupUpsert d k _),
      upsertUpsert]
    rw [List.append_assoc]
    rfl

/-- Folding the serialized lines of one good binding writes exactly that
binding. -/
theorem foldBinding (d : FMap) (mode : PMode) (k : Str) (v : FMValue)
    (hk : GoodKey k) (hv : GoodVal v) :
    ∃ mode', List.foldl parseStep (d, mode) (serializeBinding (k, v)) =
      (upsert d k v, mode') := by
  cases v with
  | str s =>
    refine ⟨.top, ?_⟩
    show List.foldl parseStep (d, mode) [k ++ ':' :: ' ' :: '"' :: s ++ ['"']] = _
    rw [List.foldl_cons, List.foldl_nil,
      show k ++ ':' :: ' ' :: '"' :: s ++ ['"']
        = k ++ ':' :: (' ' :: '"' :: s ++ ['"']) by simp,
      parseStepKeyAny d mode _ (keyLineHeadNotWs k hk _),
      show k ++ ':' :: (' ' :: '"' :: s ++ ['"'])
        = k ++ ':' :: ' ' :: '"' :: s ++ ['"'] by simp,
      keyLineQuoted d k hk s]
  | arr xs =>
    by_cases hall : xs.all (fun x => jsTrim x = x) = true
    · refine ⟨.array k, ?_⟩
      have hstep : serializeBinding (k, .arr xs) =
          (k ++ [':']) :: xs.map (fun x => ' ' :: ' ' :: '-' :: ' ' :: x) := by
        simp only [serializeBinding]
        rw [if_pos hall]
      rw [hstep, List.foldl_cons,
        show k ++ [':'] = k ++ ':' :: ([] : Str) by simp,
        parseStepKeyAny d mode _ (keyLineHeadNotWs k hk _),
        show k ++ ':' :: ([] : Str) = k ++ [':'] by simp,
        keyLineBlockHead d k hk,
        foldItems k xs _ [] (fun x hx => by
          have := List.all_eq_true.mp hall x hx
          simpa using this) (alookupUpsert d k _),
        upsertUpsert]
      rw [List.nil_append]
    · refine ⟨.top, ?_⟩
      have hne : xs ≠ [] := by
        intro hc
        subst hc
        exact hall rfl
      have hcf : ∀ x ∈ xs, ',' ∉ x ∧ '"' ∉ x ∧ '\'' ∉ x := by
        rcases hv with hv | hv
        · exfalso
          refine hall (List.all_eq_true.mpr ?_)
          intro x hx
          simpa using hv x hx
        · exact hv
      have hstep : serializeBinding (k, .arr xs) =
          [k ++ ':' :: ' ' :: '[' ::
            ((xs.map (fun x => '"' :: x ++ ['"'])).intersperse [',']).flatten
            ++ [']']] := by
        simp only [serializeBinding]
        rw [if_neg hall]
      rw [hstep, List.foldl_cons, List.foldl_nil,
        show k ++ ':' :: ' ' :: '[' ::
            ((xs.map (fun x => '"' :: x ++ ['"'])).intersperse [',']).flatten
            ++ [']']
          = k ++ ':' :: (' ' :: '[' ::
            ((xs.map (fun x => '"' :: x ++ ['"'])).intersperse [',']).flatten
            ++ [']']) by simp,
        parseStepKeyAny d mode _ (keyLineHeadNotWs k hk _),
        show k ++ ':' :: (' ' :: '[' ::
            ((xs.map (fun x => '"' :: x ++ ['"'])).intersperse [',']).flatten
            ++ [']'])
          = k ++ ':' :: ' ' :: '[' ::
            ((xs.map (fun x => '"' :: x ++ ['"'])).intersperse [',']).flatten
            ++ [']'] by simp,
        keyLineInline d k hk xs hne hcf]

/-- Folding the serialized lines of a whole good data object with fresh
keys appends all its bindings. -/
theorem foldBindings :
    ∀ (m : FMap) (d : FMap) (mode : PMode),
      (∀ p ∈ m, GoodKey p.1 ∧ GoodVal p.2) →
      (m.map Prod.fst).Nodup →
      (∀ a ∈ m.map Prod.fst, a ∉ d.map Prod.fst) →
      ∃ mode', List.foldl parseStep (d, mode) (m.flatMap serializeBinding) =
        (d ++ m, mode') := by
  intro m
  induction m with
  | nil =>
    intro d mode _ _ _
    exact ⟨mode, by rw [List.flatMap_nil, List.foldl_nil, List.append_nil]⟩
  | cons p t ih =>
    obtain ⟨k, v⟩ := p
    intro d mode hg hnd hf
    rw [List.flatMap_cons, List.foldl_append]
    obtain ⟨mode1, h1⟩ := foldBinding d mode k v
      (hg _ (List.mem_cons_self _ _)).1 (hg _ (List.mem_cons_self _ _)).2
    rw [h1, upsertFresh d k v (hf k (by
      rw [List.map_cons]
      exact List.mem_cons_self _ _))]
    have hndt : (t.map Prod.fst).Nodup := by
      rw [List.map_cons, List.nodup_cons] at hnd
      exact hnd.2
    have hknt : k ∉ t.map Prod.fst := by
      rw [List.map_cons, List.nodup_cons] at hnd
      exact hnd.1
    obtain ⟨mode2, h2⟩ := ih (d ++ [(k, v)]) mode1
      (fun q hq => hg q (List.mem_cons_of_mem _ hq)) hndt
      (fun a ha => by
        rw [List.map_append]
        intro hc
        rcases List.mem_append.mp hc with hc' | hc'
        · exact hf a (by rw [List.map_cons]; exact List.mem_cons_of_mem _ ha) hc'
        · simp only [List.map_cons, List.map_nil, List.mem_singleton] at hc'
          subst hc'
          exact hknt ha)
    rw [h2]
    exact ⟨mode2, by rw [List.append_assoc]; rfl⟩

/-- Parsing the serialized body of a good data object recovers it. -/
theorem parseLinesSerialized (m : FMap) (hg : GoodData m) :
    parseLines (m.flatMap serializeBinding) = m := by
  obtain ⟨mode', h⟩ := foldBindings m [] .top hg.1 hg.2
    (fun a _ => List.not_mem_nil a)
  unfold parseLines
  rw [h, List.nil_append]

/-! ## Round-trip development (C8): extracting the serialized document -/

/-- A string that is not delimiter-prefixed as a Boolean fact. -/
theorem notDashPrefixOfNot (l : Str) (h : ¬ (("---").data <+: l)) :
    ("---").data.isPrefixOf l = false := by
  rw [Bool.eq_false_iff]
  intro hc
  exact h (List.isPrefixOf_iff_prefix.mp hc)

/-- A line starting with a space is not delimiter-prefixed. -/
theorem notDashOfHeadSpace (l : Str) (h : l.head? = some ' ') :
    ("---").data.isPrefixOf l = false := by
  refine notDashPrefixOfNot l ?_
  intro hc
  cases l with
  | nil => simp at h
  | cons a t =>
    simp only [List.head?_cons, Option.some.injEq] at h
    subst h
    rw [show ("---").data = '-' :: '-' :: '-' :: [] from rfl] at hc
    exact absurd (List.cons_prefix_cons.mp hc).1 (by decide)

/-- The shape of a serialized binding: a key line followed by lines that
start with a space. -/
theorem serializeBindingShape (k : Str) (v : FMValue) :
    ∃ rest tail, serializeBinding (k, v) = (k ++ ':' :: rest) :: tail ∧
      ∀ l ∈ tail, l.head? = some ' ' := by
  cases v with
  | str s =>
    refine ⟨' ' :: '"' :: s ++ ['"'], [], by simp [serializeBinding], ?_⟩
    intro l hl
    simp at hl
  | arr xs =>
    by_cases hall : xs.all (fun x => jsTrim x = x) = true
    · refine ⟨[], xs.map (fun x => ' ' :: ' ' :: '-' :: ' ' :: x), ?_, ?_⟩
      · simp only [serializeBinding]
        rw [if_pos hall]
      · intro l hl
        rw [List.mem_map] at hl
        obtain ⟨x, _, rfl⟩ := hl
        rfl
    · refine ⟨' ' :: '[' ::
        ((xs.map (fun x => '"' :: x ++ ['"'])).intersperse [',']).flatten
        ++ [']'], [], ?_, ?_⟩
      · simp only [serializeBinding]
        rw [if_neg hall]
        simp
      · intro l hl
        simp at hl

/-- No line of a serialized binding with a non-delimiter key is
delimiter-prefixed. -/
theorem serializeBindingNotDash (k : Str) (v : FMValue)
    (hk : ("---").data.isPrefixOf k = false) :
    ∀ l ∈ serializeBinding (k, v), ("---").data.isPrefixOf l = false := by
  obtain ⟨rest, tail, hshape, htail⟩ := serializeBindingShape k v
  rw [hshape]
  intro l hl
  rcases List.mem_cons.mp hl with rfl | hl'
  · refine notDashPrefixOfNot _ ?_
    intro hc
    have hkpre :=
      prefixAppendColon ("---").data k rest (by decide) hc
    rw [← List.isPrefixOf_iff_prefix] at hkpre
    rw [hkpre] at hk
    exact absurd hk (by decide)
  · exact notDashOfHeadSpace l (htail l hl')

/-- Every line after the first of a serialized binding starts with a
space, hence is not delimiter-prefixed. -/
theorem serializeBindingTailNotDash (k : Str) (v : FMValue) :
    ∀ l ∈ (serializeBinding (k, v)).drop 1,
      ("---").data.isPrefixOf l = false := by
  obtain ⟨rest, tail, hshape, htail⟩ := serializeBindingShape k v
  rw [hshape]
  intro l hl
  rw [List.drop_one, List.tail_cons] at hl
  exact notDashOfHeadSpace l (htail l hl)

/-- No line of the serialized tail bindings is delimiter-prefixed. -/
theorem flatMapNotDash (t : FMap)
    (h : ∀ p ∈ t, ("---").data.isPrefixOf p.1 = false) :
    ∀ l ∈ t.flatMap serializeBinding,
      ("---").data.isPrefixOf l = false := by
  intro l hl
  rw [List.mem_flatMap] at hl
  obtain ⟨p, hp, hlp⟩ := hl
  obtain ⟨k, v⟩ := p
  exact serializeBindingNotDash k v (h _ hp) l hlp

/-- Extraction recovers exactly the serialized body of a nonempty data
object whose tail keys avoid the delimiter. -/
theorem fmExtractSerialized (m : FMap) (hm : m ≠ [])
    (htail : TailKeysOk m) :
    fmExtract (serializeFrontmatter m) = some (m.flatMap serializeBinding) := by
  obtain ⟨⟨k0, v0⟩, t, rfl⟩ : ∃ p t, m = p :: t := by
    cases m with
    | nil => exact absurd rfl hm
    | cons p t => exact ⟨p, t, rfl⟩
  obtain ⟨rest0, tail0, hshape, _⟩ := serializeBindingShape k0 v0
  have hb : ((k0, v0) :: t).flatMap serializeBinding =
      (k0 ++ ':' :: rest0) :: (tail0 ++ t.flatMap serializeBinding) := by
    rw [List.flatMap_cons, hshape]
    rfl
  have hbs : ∀ l ∈ tail0 ++ t.flatMap serializeBinding,
      ("---").data.isPrefixOf l = false := by
    intro l hl
    rcases List.mem_append.mp hl with hl' | hl'
    · refine serializeBindingTailNotDash k0 v0 l ?_
      rw [hshape, List.drop_one, List.tail_cons]
      exact hl'
    · refine flatMapNotDash t ?_ l hl'
      intro p hp
      exact htail p (by rw [List.drop_one, List.tail_cons]; exact hp)
  have hser : serializeFrontmatter ((k0, v0) :: t) =
      ("---").data :: (k0 ++ ':' :: rest0) ::
        ((tail0 ++ t.flatMap serializeBinding) ++ [("---").data]) := by
    unfold serializeFrontmatter
    rw [hb]
    simp
  have hfme : ∀ (l0 r0 : Str) (rs : List Str),
      fmExtract (l0 :: r0 :: rs) =
        if l0 = ("---").data then
          match rs.findIdx? (fun l => ("---").data.isPrefixOf l) with
          | some i => some (r0 :: rs.take i)
          | none => none
        else none := fun _ _ _ => rfl
  rw [hser, hfme]
  rw [if_pos rfl,
    findIdxAppendLast (fun l => (("---").data.isPrefixOf l)) (("---").data)
      [] _ (by decide) hbs]
  show some ((k0 ++ ':' :: rest0) ::
      ((tail0 ++ t.flatMap serializeBinding) ++ [("---").data]).take
        (tail0 ++ t.flatMap serializeBinding).length) = _
  rw [List.take_left, hb]

/-- Mapping the parser over the extraction: the serialized document of a
good data object parses back to it. -/
theorem parseFrontmatterSerialized (m : FMap) (hg : GoodData m)
    (ht : TailKeysOk m) :
    parseFrontmatter (serializeFrontmatter m) = some m := by
  by_cases hm : m = []
  · subst hm
    rfl
  · unfold parseFrontmatter
    rw [fmExtractSerialized m hm ht, Option.map_some',
      parseLinesSerialized m hg]

/-! ## Round-trip development (C8): invariants of the parser image -/

/-- No piece produced by `jsSplit` contains the separator. -/
theorem memJsSplitNoSep (sep : Char) :
    ∀ (l : Str), ∀ p ∈ jsSplit sep l, sep ∉ p := by
  intro l
  induction l with
  | nil =>
    intro p hp
    rcases List.mem_singleton.mp hp with rfl
    exact List.not_mem_nil sep
  | cons a t ih =>
    intro p hp
    rw [jsSplitCons] at hp
    rcases hsp : jsSplit sep t with _ | ⟨h, r⟩
    · exact absurd hsp (jsSplitNeNil sep t)
    · rw [hsp] at hp
      have hp : p ∈ (if a = sep then [] :: h :: r else (a :: h) :: r) := hp
      by_cases ha : a = sep
      · rw [if_pos ha] at hp
        rcases List.mem_cons.mp hp with rfl | hp'
        · exact List.not_mem_nil sep
        · exact ih p (hsp ▸ hp')
      · rw [if_neg ha] at hp
        rcases List.mem_cons.mp hp with rfl | hp'
        · intro hc
          rcases List.mem_cons.mp hc with hc' | hc'
          · exact ha hc'.symm
          · exact ih h (hsp ▸ List.mem_cons_self h r) hc'
        · exact ih p (hsp ▸ List.mem_cons_of_mem h hp')

/-- Characters surviving `stripQuotes` occur in the source and are not
quotes. -/
theorem memStripQuotes (l : Str) (c : Char) (h : c ∈ stripQuotes l) :
    c ∈ l ∧ ¬(c = '"') ∧ ¬(c = '\'') := by
  unfold stripQuotes at h
  rw [List.mem_filter] at h
  refine ⟨h.1, ?_, ?_⟩ <;> intro hc <;> subst hc <;> simp at h

/-- A nonempty trimmed prefix of a line up to its first colon is a good
key. -/
theorem goodKeyOfFind (line : Str) (i : ℕ)
    (hf : List.findIdx? (· = ':') line = some i)
    (hne : jsTrim (line.take i) ≠ []) :
    GoodKey (jsTrim (line.take i)) := by
  refine ⟨hne, jsTrimIdem _, ?_⟩
  intro hc
  have hmem := memOfJsTrim _ _ hc
  have := findIdxTakeFalse _ line i hf ':' hmem
  simp at this

/-- The data component of a classification is always a single write. -/
theorem classifyValueFst (d : FMap) (k : Str) (value : Str) :
    ∃ w, (classifyValue d k value).1 = upsert d k w := by
  unfold classifyValue
  split
  · exact ⟨_, rfl⟩
  · split
    · exact ⟨_, rfl⟩
    · split
      · exact ⟨_, rfl⟩
      · split
        · exact ⟨_, rfl⟩
        · exact ⟨_, rfl⟩

/-- Classification preserves the data and mode invariants. -/
theorem invClassify (d : FMap) (k : Str) (value : Str)
    (hd : GoodData d) (hk : GoodKey k) :
    GoodData (classifyValue d k value).1 ∧
      ModeOk (classifyValue d k value).1 (classifyValue d k value).2 := by
  unfold classifyValue
  split
  · refine ⟨goodDataUpsert d k _ hd hk ?_, trivial⟩
    right
    intro x hx
    rw [List.mem_map] at hx
    obtain ⟨p, hp, rfl⟩ := hx
    refine ⟨?_, ?_, ?_⟩
    · intro hcm
      obtain ⟨hmem, _, _⟩ := memStripQuotes _ _ hcm
      exact memJsSplitNoSep ',' _ p hp (memOfJsTrim _ _ hmem)
    · intro hcm
      exact (memStripQuotes _ _ hcm).2.1 rfl
    · intro hcm
      exact (memStripQuotes _ _ hcm).2.2 rfl
  · split
    · refine ⟨goodDataUpsert d k _ hd hk trivial, ?_⟩
      show (alookup k (upsert d k (.str []))).isSome = true
      rw [alookupUpsert]
      rfl
    · split
      · refine ⟨goodDataUpsert d k _ hd hk (Or.inl ?_), ?_⟩
        · intro x hx
          exact absurd hx (List.not_mem_nil x)
        · exact ⟨[], alookupUpsert d k _,
            fun x hx => absurd hx (List.not_mem_nil x)⟩
      · split
        · exact ⟨goodDataUpsert d k _ hd hk trivial, trivial⟩
        · exact ⟨goodDataUpsert d k _ hd hk trivial, trivial⟩

/-- A line without a colon is skipped. -/
theorem keyLineNone (d : FMap) (line : Str)
    (hf : List.findIdx? (· = ':') line = none) :
    keyLine d line = (d, .top) := by
  unfold keyLine
  rw [hf]

/-- Case analysis of key-line processing at a found colon: the line is
skipped exactly when the key trims to nothing or the line is indented. -/
theorem keyLineCases (d : FMap) (line : Str) (i : ℕ)
    (hf : List.findIdx? (· = ':') line = some i) :
    ((decide (jsTrim (line.take i) = []) ||
        (match line.head? with | some c => isWsChar c | none => false)) = true
      ∧ keyLine d line = (d, .top))
    ∨ ((decide (jsTrim (line.take i) = []) ||
        (match line.head? with | some c => isWsChar c | none => false)) = false
      ∧ keyLine d line = classifyValue d (jsTrim (line.take i))
          (jsTrim (line.drop (i + 1)))) := by
  by_cases hcond : (decide (jsTrim (line.take i) = []) ||
      (match line.head? with | some c => isWsChar c | none => false)) = true
  · refine Or.inl ⟨hcond, ?_⟩
    unfold keyLine
    rw [hf]
    show (if (decide (jsTrim (line.take i) = []) ||
        (match line.head? with | some c => isWsChar c | none => false)) = true
      then (d, PMode.top)
      else classifyValue d (jsTrim (line.take i))
        (jsTrim (line.drop (i + 1)))) = (d, PMode.top)
    rw [if_pos hcond]
  · refine Or.inr ⟨by rwa [Bool.not_eq_true] at hcond, ?_⟩
    unfold keyLine
    rw [hf]
    show (if (decide (jsTrim (line.take i) = []) ||
        (match line.head? with | some c => isWsChar c | none => false)) = true
      then (d, PMode.top)
      else classifyValue d (jsTrim (line.take i))
        (jsTrim (line.drop (i + 1)))) = _
    rw [if_neg hcond]

/-- Key-line processing preserves the data and mode invariants. -/
theorem invKeyLine (d : FMap) (line : Str) (hd : GoodData d) :
    GoodData (keyLine d line).1 ∧
      ModeOk (keyLine d line).1 (keyLine d line).2 := by
  cases hf : List.findIdx? (· = ':') line with
  | none =>
    rw [keyLineNone d line hf]
    exact ⟨hd, trivial⟩
  | some i =>
    rcases keyLineCases d line i hf with ⟨_, heq⟩ | ⟨hcond, heq⟩
    · rw [heq]
      exact ⟨hd, trivial⟩
    · rw [heq]
      have hne : jsTrim (line.take i) ≠ [] := by
        intro hc
        rw [hc] at hcond
        simp at hcond
      exact invClassify d _ _ hd (goodKeyOfFind line i hf hne)

/-- A successful lookup exhibits a member pair with the looked-up key. -/
theorem alookupMem {α : Type} :
    ∀ (d : List (Str × α)) (k : Str) (v : α),
      alookup k d = some v → ∃ p ∈ d, p.1 = k ∧ p.2 = v := by
  intro d
  induction d with
  | nil => intro k v h; simp [alookup] at h
  | cons q t ih =>
    intro k v h
    obtain ⟨k', v'⟩ := q
    rw [alookupCons] at h
    by_cases hp : k' = k
    · rw [if_pos hp] at h
      simp only [Option.some.injEq] at h
      exact ⟨(k', v'), List.mem_cons_self _ _, hp, h⟩
    · rw [if_neg hp] at h
      obtain ⟨p, hpmem, hpk, hpv⟩ := ih k v h
      exact ⟨p, List.mem_cons_of_mem _ hpmem, hpk, hpv⟩

/-- The key of a successful lookup is a good key of a good data object. -/
theorem goodKeyOfLookup {v : FMValue} (d : FMap) (k : Str)
    (hd : GoodData d) (h : alookup k d = some v) : GoodKey k := by
  obtain ⟨p, hpmem, hpk, _⟩ := alookupMem d k v h
  exact hpk ▸ (hd.1 p hpmem).1

/-- An array push in a consistent array mode preserves the invariants. -/
theorem invArrPush (d : FMap) (k : Str) (t : Str) (hd : GoodData d)
    (xs : List Str) (hlk : alookup k d = some (.arr xs))
    (hxs : ∀ x ∈ xs, jsTrim x = x) :
    GoodData (arrPush d k (jsTrim t)) ∧
      ModeOk (arrPush d k (jsTrim t)) (.array k) := by
  rw [arrPushLookup d k xs _ hlk]
  have hall : ∀ x ∈ xs ++ [jsTrim t], jsTrim x = x := by
    intro x hx
    rcases List.mem_append.mp hx with hx' | hx'
    · exact hxs x hx'
    · rcases List.mem_singleton.mp hx' with rfl
      exact jsTrimIdem t
  refine ⟨goodDataUpsert d k _ hd (goodKeyOfLookup d k hd hlk) (Or.inl hall),
    xs ++ [jsTrim t], alookupUpsert d k _, hall⟩

/-- A string append in a consistent string mode preserves the
invariants. -/
theorem invStrAppend (d : FMap) (k : Str) (t : Str) (hd : GoodData d)
    (hk : (alookup k d).isSome = true) :
    GoodData (strAppend d k t) ∧ ModeOk (strAppend d k t) (.string k) := by
  obtain ⟨v, hv⟩ := Option.isSome_iff_exists.mp hk
  unfold strAppend
  rw [hv]
  refine ⟨goodDataUpsert d k _ hd (goodKeyOfLookup d k hd hv) trivial, ?_⟩
  show (alookup k (upsert d k _)).isSome = true
  rw [alookupUpsert]
  rfl

/-- One scanner step preserves the data and mode invariants. -/
theorem invStep (d : FMap) (mode : PMode) (line : Str)
    (hd : GoodData d) (hm : ModeOk d mode) :
    GoodData (parseStep (d, mode) line).1 ∧
      ModeOk (parseStep (d, mode) line).1 (parseStep (d, mode) line).2 := by
  cases mode with
  | top => exact invKeyLine d line hd
  | array k =>
    obtain ⟨xs, hlk, hxs⟩ := hm
    unfold parseStep
    cases hai : arrayItemOf line with
    | none => exact invKeyLine d line hd
    | some item => exact invArrPush d k item hd xs hlk hxs
  | string k =>
    unfold parseStep
    by_cases hcnd : ((match line.head? with
        | some c => isWsChar c | none => false)
        && (arrayItemOf line).isNone) = true
    · rw [hcnd]
      exact invStrAppend d k (jsTrim line) hd hm
    · rw [Bool.not_eq_true] at hcnd
      rw [hcnd]
      exact invKeyLine d line hd

/-- The invariants hold along the whole scan. -/
theorem invFoldl :
    ∀ (lines : List Str) (st : FMap × PMode),
      GoodData st.1 → ModeOk st.1 st.2 →
      GoodData (List.foldl parseStep st lines).1 ∧
        ModeOk (List.foldl parseStep st lines).1
          (List.foldl parseStep st lines).2 := by
  intro lines
  induction lines with
  | nil => intro st h1 h2; exact ⟨h1, h2⟩
  | cons l ls ih =>
    intro st h1 h2
    rw [List.foldl_cons]
    obtain ⟨d, mode⟩ := st
    obtain ⟨h1', h2'⟩ := invStep d mode l h1 h2
    exact ih _ h1' h2'

/-- Every parsed data object is well formed. -/
theorem goodDataParseLines (lines : List Str) : GoodData (parseLines lines) :=
  (invFoldl lines ([], .top)
    ⟨fun p hp => absurd hp (List.not_mem_nil p), List.nodup_nil⟩ trivial).1

/-! ## Round-trip development (C8): positions of parsed keys -/

/-- A key written by key-line processing is a prefix of its line, and the
write is visible in the key list as at most one appended key. -/
theorem keysKeyLine (d : FMap) (line : Str) :
    (keyLine d line).1.map Prod.fst = d.map Prod.fst ∨
    ∃ key, (keyLine d line).1.map Prod.fst = d.map Prod.fst ++ [key] ∧
      key <+: line := by
  cases hf : List.findIdx? (· = ':') line with
  | none =>
    rw [keyLineNone d line hf]
    exact Or.inl rfl
  | some i =>
    rcases keyLineCases d line i hf with ⟨_, heq⟩ | ⟨hcond, heq⟩
    · rw [heq]
      exact Or.inl rfl
    · rw [heq]
      obtain ⟨w, hw⟩ := classifyValueFst d (jsTrim (line.take i))
        (jsTrim (line.drop (i + 1)))
      rw [hw]
      by_cases hmem : jsTrim (line.take i) ∈ d.map Prod.fst
      · exact Or.inl (upsertKeysOfMem d _ w hmem)
      · refine Or.inr ⟨jsTrim (line.take i), ?_, ?_⟩
        · rw [upsertFresh d _ w hmem, List.map_append]
          rfl
        · have hi : i ≠ 0 := by
            intro hc
            subst hc
            rw [Bool.or_eq_false_iff] at hcond
            have := hcond.1
            simp at this
            exact this rfl
          have hhw : (match line.head? with
              | some c => isWsChar c | none => false) = false := by
            rw [Bool.or_eq_false_iff] at hcond
            exact hcond.2
          have hlt : ltrim (line.take i) = line.take i := by
            refine ltrimEqOfHead _ ?_
            intro c hc
            cases line with
            | nil => simp at hc
            | cons a t =>
              cases i with
              | zero => exact absurd rfl hi
              | succ j =>
                rw [List.take_succ_cons, List.head?_cons] at hc
                simp only [Option.some.injEq] at hc
                subst hc
                simpa using hhw
          have hpre : jsTrim (line.take i) <+: line.take i := by
            show rtrim (ltrim (line.take i)) <+: line.take i
            rw [hlt]
            exact rtrimPrefix _
          exact hpre.trans (List.take_prefix i line)

/-- One scanner step in a consistent state either keeps the key list or
appends one key that prefixes the processed line. -/
theorem stepKeys (d : FMap) (mode : PMode) (line : Str)
    (hm : ModeOk d mode) :
    (parseStep (d, mode) line).1.map Prod.fst = d.map Prod.fst ∨
    ∃ key, (parseStep (d, mode) line).1.map Prod.fst
        = d.map Prod.fst ++ [key] ∧ key <+: line := by
  cases mode with
  | top => exact keysKeyLine d line
  | array k =>
    obtain ⟨xs, hlk, _⟩ := hm
    unfold parseStep
    cases hai : arrayItemOf line with
    | none => exact keysKeyLine d line
    | some item =>
      refine Or.inl ?_
      show (arrPush d k (jsTrim item)).map Prod.fst = d.map Prod.fst
      rw [arrPushLookup d k xs _ hlk]
      refine upsertKeysOfMem d k _ ?_
      obtain ⟨p, hpmem, hpk, _⟩ := alookupMem d k _ hlk
      exact hpk ▸ List.mem_map_of_mem Prod.fst hpmem
  | string k =>
    unfold parseStep
    by_cases hcnd : ((match line.head? with
        | some c => isWsChar c | none => false)
        && (arrayItemOf line).isNone) = true
    · rw [hcnd]
      refine Or.inl ?_
      show (strAppend d k (jsTrim line)).map Prod.fst = d.map Prod.fst
      obtain ⟨v, hv⟩ := Option.isSome_iff_exists.mp hm
      unfold strAppend
      rw [hv]
      refine upsertKeysOfMem d k _ ?_
      obtain ⟨p, hpmem, hpk, _⟩ := alookupMem d k _ hv
      exact hpk ▸ List.mem_map_of_mem Prod.fst hpmem
    · rw [Bool.not_eq_true] at hcnd
      rw [hcnd]
      exact keysKeyLine d line

/-- Scanning lines that do not start with the delimiter keeps every key
beyond the first delimiter-free. -/
theorem tailKeysFoldl :
    ∀ (ls : List Str) (d : FMap) (mode : PMode),
      (∀ l ∈ ls, ("---").data.isPrefixOf l = false) →
      GoodData d → ModeOk d mode →
      (∀ a ∈ (d.map Prod.fst).drop 1, ("---").data.isPrefixOf a = false) →
      ∀ a ∈ (((List.foldl parseStep (d, mode) ls).1.map Prod.fst).drop 1),
        ("---").data.isPrefixOf a = false := by
  intro ls
  induction ls with
  | nil => intro d mode _ _ _ h; exact h
  | cons l t ih =>
    intro d mode hls h1 h2 h3
    rw [List.foldl_cons]
    obtain ⟨h1', h2'⟩ := invStep d mode l h1 h2
    have hstep : ∀ a ∈ (((parseStep (d, mode) l).1.map Prod.fst).drop 1),
        ("---").data.isPrefixOf a = false := by
      rcases stepKeys d mode l h2 with hk | ⟨key, hk, hpre⟩
      · rw [hk]
        exact h3
      · rw [hk]
        have hkey : ("---").data.isPrefixOf key = false := by
          refine notDashPrefixOfNot key ?_
          intro hc
          have hpl : ("---").data.isPrefixOf l = true :=
            List.isPrefixOf_iff_prefix.mpr (hc.trans hpre)
          rw [hls l (List.mem_cons_self _ _)] at hpl
          exact absurd hpl (by decide)
        cases hkeys : d.map Prod.fst with
        | nil =>
          rw [List.nil_append]
          intro a ha
          simp at ha
        | cons b bs =>
          rw [List.cons_append, List.drop_one, List.tail_cons]
          intro a ha
          rcases List.mem_append.mp ha with h | h
          · refine h3 a ?_
            rw [hkeys, List.drop_one, List.tail_cons]
            exact h
          · rcases List.mem_singleton.mp h with rfl
            exact hkey
    have hgoal := ih (parseStep (d, mode) l).1 (parseStep (d, mode) l).2
      (fun x hx => hls x (List.mem_cons_of_mem _ hx)) h1' h2' hstep
    rw [show ((parseStep (d, mode) l).1, (parseStep (d, mode) l).2)
      = parseStep (d, mode) l from rfl] at hgoal
    exact hgoal

/-- Parsing a block whose lines beyond the first avoid the delimiter
yields a data object whose keys beyond the first avoid the delimiter. -/
theorem tailKeysParse (r0 : Str) (ls : List Str)
    (hls : ∀ l ∈ ls, ("---").data.isPrefixOf l = false) :
    TailKeysOk (parseLines (r0 :: ls)) := by
  have hst : parseStep ([], .top) r0 = keyLine [] r0 := rfl
  have hbase : ∀ a ∈ (((keyLine [] r0).1.map Prod.fst).drop 1),
      ("---").data.isPrefixOf a = false := by
    rcases keysKeyLine [] r0 with hk | ⟨key, hk, _⟩
    · rw [hk]
      intro a ha
      simp at ha
    · rw [hk]
      intro a ha
      simp at ha
  have hinv := invKeyLine [] r0
    ⟨fun p hp => absurd hp (List.not_mem_nil p), List.nodup_nil⟩
  have hkeys := tailKeysFoldl ls (keyLine [] r0).1 (keyLine [] r0).2 hls
    hinv.1 hinv.2 hbase
  intro p hp
  have hp1 : p.1 ∈ (((List.foldl parseStep
      ((keyLine [] r0).1, (keyLine [] r0).2) ls).1.map Prod.fst).drop 1) := by
    rw [← List.map_drop]
    refine List.mem_map_of_mem Prod.fst ?_
    rw [show ((keyLine [] r0).1, (keyLine [] r0).2) = keyLine [] r0 from rfl,
      ← hst]
    have : parseLines (r0 :: ls)
        = (List.foldl parseStep (parseStep ([], .top) r0) ls).1 := by
      unfold parseLines
      rw [List.foldl_cons]
    rw [← this]
    exact hp
  exact hkeys p.1 hp1

/-- The unfolding of extraction on a two-line-or-more document. -/
theorem fmExtractCons (l0 r0 : Str) (rs : List Str) :
    fmExtract (l0 :: r0 :: rs) =
      if l0 = ("---").data then
        match rs.findIdx? (fun l => ("---").data.isPrefixOf l) with
        | some i => some (r0 :: rs.take i)
        | none => none
      else none := rfl

/-- A successful extraction yields a first line followed by lines that do
not begin with the delimiter. -/
theorem fmExtractShape (doc : List Str) (lines : List Str)
    (h : fmExtract doc = some lines) :
    ∃ r0 ls, lines = r0 :: ls ∧
      ∀ l ∈ ls, ("---").data.isPrefixOf l = false := by
  cases doc with
  | nil => exact absurd h (by simp [fmExtract])
  | cons l0 rest =>
    cases rest with
    | nil => exact absurd h (by simp [fmExtract])
    | cons r0 rs =>
      rw [fmExtractCons] at h
      by_cases hl0 : l0 = ("---").data
      · rw [if_pos hl0] at h
        cases hidx : rs.findIdx? (fun l => ("---").data.isPrefixOf l) with
        | none =>
          rw [hidx] at h
          exact absurd h (by simp)
        | some i =>
          rw [hidx] at h
          simp only [Option.some.injEq] at h
          refine ⟨r0, rs.take i, h.symm, ?_⟩
          exact findIdxTakeFalse _ rs i hidx
      · rw [if_neg hl0] at h
        exact absurd h (by simp)

/-- C8: for every descriptor document whose header parses successfully,
re-serializing the parsed key-to-value mapping in the supported subset
(quoted scalars, block lists, inline lists of quoted items) and parsing
again yields the same mapping: parse after serialize is the identity on
the parser's image. -/
theorem headerRoundTrip (doc : List Str) (m : FMap)
    (hp : parseFrontmatter doc = some m) :
    parseFrontmatter (serializeFrontmatter m) = some m := by
  unfold parseFrontmatter at hp
  cases hex : fmExtract doc with
  | none =>
    rw [hex] at hp
    exact absurd hp (by simp)
  | some lines =>
    rw [hex, Option.map_some'] at hp
    simp only [Option.some.injEq] at hp
    obtain ⟨r0, ls, hlines, hls⟩ := fmExtractShape doc lines hex
    subst hlines
    subst hp
    exact parseFrontmatterSerialized _ (goodDataParseLines _)
      (tailKeysParse r0 ls hls)

theorem headerRoundTripWitness :
    parseFrontmatter
        [("---").data, ("name: \"alpha beta\"").data, ("tools:").data,
         ("  - read").data, ("  - write").data,
         ("list: [\" a \",\"b\"]").data, ("---").data,
         ("body text").data] =
      some [(("name").data, .str (("alpha beta").data)),
            (("tools").data, .arr [("read").data, ("write").data]),
            (("list").data, .arr [(" a ").data, ("b").data])] ∧
    parseFrontmatter (serializeFrontmatter
        [(("name").data, .str (("alpha beta").data)),
         (("tools").data, .arr [("read").data, ("write").data]),
         (("list").data, .arr [(" a ").data, ("b").data])]) =
      some [(("name").data, .str (("alpha beta").data)),
            (("tools").data, .arr [("read").data, ("write").data]),
            (("list").data, .arr [(" a ").data, ("b").data])] :=
  ⟨rfl, headerRoundTrip
    [("---").data, ("name: \"alpha beta\"").data, ("tools:").data,
     ("  - read").data, ("  - write").data,
     ("list: [\" a \",\"b\"]").data, ("---").data, ("body text").data]
    _ rfl⟩
